import Mathlib

/-!
# Sparse polynomial arithmetic (`src/Polynomial.cpp`)

A shallow embedding of the class template `Polynomial<T>` and of the properties
its specification states.

## Modelling conventions

* The private member `std::map<int, T> Data` is the list of its entries in
  increasing key order.  `std::map` keeps its keys unique and ordered, which is
  the predicate `Sorted`; it is a property of the container, not of the program.
* Exponents are `Int`.  The C++ type is `int`, whose overflow is undefined
  behaviour; the model describes the executions without overflow.
* The coefficient type `T` is a parameter.  `T()` is `0`; the operators the
  source uses on `T` are the ones of the type classes named in each definition.
* Loops whose termination depends on the data (`divide`, `operator,`) take a
  fuel argument that bounds the number of guard evaluations and return `none`
  when it is used up.
* A polynomial of the specification is a map with the properties of its §3:
  keys in order (`Sorted`), no stored coefficient equal to `T()` (`ZeroFree`,
  which every constructor and operator establishes) and exponents that are not
  negative (`NonNeg`); §4.6 asks for a divisor of degree at least `0`.  Each
  theorem names the ones it uses as hypotheses.
* `/` on `T` is the division of the coefficient field.  On maps that satisfy
  the zero-free invariant the divisor of every coefficient division in a run
  that returns a result is the leading coefficient of a non-empty map, hence
  not `0`.
-/

namespace Comunodi

/-- The class `Polynomial<T>`: its only data member, `std::map<int, T> Data`,
as the list of entries in increasing key order. -/
abbrev Polynomial (T : Type) : Type := List (Int × T)

namespace Polynomial

variable {T : Type}

/-! ## The container -/

/-- Keys strictly increase along the list: what `std::map` guarantees. -/
def Sorted (p : Polynomial T) : Prop :=
  List.Pairwise (fun a b : Int × T => a.1 < b.1) p

instance (p : Polynomial T) : Decidable (Sorted p) := by
  unfold Sorted; infer_instance

/-- The invariant of §3 of the specification: no stored coefficient is `T()`. -/
def ZeroFree [Zero T] (p : Polynomial T) : Prop :=
  ∀ e ∈ p, e.2 ≠ 0

instance [Zero T] [DecidableEq T] (p : Polynomial T) : Decidable (ZeroFree p) := by
  unfold ZeroFree; infer_instance

/-- The data model of §3: exponents are non-negative. -/
def NonNeg (p : Polynomial T) : Prop :=
  ∀ e ∈ p, 0 ≤ e.1

instance (p : Polynomial T) : Decidable (NonNeg p) := by
  unfold NonNeg; infer_instance

/-- The member `Data.find(power)`: `none` stands for `Data.end()`. -/
def find (power : Int) : Polynomial T → Option T
  | [] => none
  | (k, c) :: m => if power = k then some c else find power m

/-- The member `Data.insert({power, v})`: no effect when the key is present. -/
def insert (power : Int) (v : T) : Polynomial T → Polynomial T
  | [] => [(power, v)]
  | (k, c) :: m =>
    if power < k then (power, v) :: (k, c) :: m
    else if power = k then (k, c) :: m
    else (k, c) :: insert power v m

/-- The statement `Data[power] += v`: `Data[power]` creates the entry with value
`T()` when it is absent. -/
def addAt [Zero T] [Add T] (power : Int) (v : T) : Polynomial T → Polynomial T
  | [] => [(power, 0 + v)]
  | (k, c) :: m =>
    if power < k then (power, 0 + v) :: (k, c) :: m
    else if power = k then (k, c + v) :: m
    else (k, c) :: addAt power v m

/-- The statement `Data[power] -= v`. -/
def subAt [Zero T] [Sub T] (power : Int) (v : T) : Polynomial T → Polynomial T
  | [] => [(power, 0 - v)]
  | (k, c) :: m =>
    if power < k then (power, 0 - v) :: (k, c) :: m
    else if power = k then (k, c - v) :: m
    else (k, c) :: subAt power v m

/-! ## Constructors -/

/-- The default-constructed polynomial `Polynomial()`: `monom == T()`, so nothing
is inserted. -/
def zero : Polynomial T := []

/-- The loop of `Polynomial(const std::vector<T>&)`, from index `i` on. -/
def ofCoeffsLoop [Zero T] [DecidableEq T] : List T → Int → Polynomial T → Polynomial T
  | [], _, data => data
  | c :: cs, i, data =>
    ofCoeffsLoop cs (i + 1) (if c ≠ 0 then insert i c data else data)

/-- The constructor `Polynomial(const std::vector<T>& coefficients)`. -/
def ofCoeffs [Zero T] [DecidableEq T] (coefficients : List T) : Polynomial T :=
  ofCoeffsLoop coefficients 0 []

/-- The constructor `Polynomial(const T& monom = T(), int power = 0)`. -/
def monomial [Zero T] [DecidableEq T] (monom : T) (power : Int) : Polynomial T :=
  if monom ≠ 0 then insert power monom [] else []

/-- The loop of `Polynomial(It first, It last)`; the range is the list of the
values it yields. -/
def ofRangeLoop [Zero T] [DecidableEq T] : List T → Int → Polynomial T → Polynomial T
  | [], _, data => data
  | c :: rest, power, data =>
    ofRangeLoop rest (power + 1) (if c ≠ 0 then insert power c data else data)

/-- The constructor `Polynomial(It first, It last)`. -/
def ofRange [Zero T] [DecidableEq T] (range : List T) : Polynomial T :=
  ofRangeLoop range 0 []

/-! ## Members -/

/-- The member `normalize()`: erase every entry whose value is `T()`. -/
def normalize [Zero T] [DecidableEq T] : Polynomial T → Polynomial T
  | [] => []
  | (k, c) :: m => if c = 0 then normalize m else (k, c) :: normalize m

/-- The operators `+=` and `+` (`+` is `+=` on a copy of `left`). -/
def add [Zero T] [Add T] [DecidableEq T] (left other : Polynomial T) : Polynomial T :=
  normalize (other.foldl (fun data monom => addAt monom.1 monom.2 data) left)

/-- The operators `-=` and `-`. -/
def sub [Zero T] [Sub T] [DecidableEq T] (left other : Polynomial T) : Polynomial T :=
  normalize (other.foldl (fun data monom => subAt monom.1 monom.2 data) left)

/-- The two nested loops of `operator*=`, run on the accumulator `tmp`. -/
def mulLoop [Zero T] [Add T] [Mul T] (left other tmp : Polynomial T) : Polynomial T :=
  left.foldl (fun tmp1 it1 =>
    other.foldl (fun tmp2 it2 => addAt (it1.1 + it2.1) (it1.2 * it2.2) tmp2) tmp1) tmp

/-- The operators `*=` and `*`. -/
def mul [Zero T] [Add T] [Mul T] [DecidableEq T] (left other : Polynomial T) :
    Polynomial T :=
  normalize (mulLoop left other [])

/-- The member `operator[](power)`. -/
def get [Zero T] (p : Polynomial T) (power : Int) : T :=
  match find power p with
  | none => 0
  | some c => c

/-- The member `Degree()`. -/
def Degree (p : Polynomial T) : Int :=
  match p.getLast? with
  | none => -1
  | some e => e.1

/-- The loops `while (power > bound) { res *= value; --power; }` of
`operator()`: the body runs `n = power - bound` times (not at all when
`power <= bound`). -/
def timesValue [Mul T] (value : T) : Nat → T → T
  | 0, res => res
  | n + 1, res => timesValue value n (res * value)

/-- The loop `while (power > 0)` of `operator()`, `rits` being the entries that
the reverse iterator `rit` has still to visit.  When `rit == Data.rend()` the
inner loop leaves `power <= 0`, so the outer loop ends after it. -/
def evalLoop [Add T] [Mul T] (value : T) : List (Int × T) → Int → T → T
  | [], power, res =>
    if power > 0 then timesValue value power.toNat res else res
  | rit :: rits, power, res =>
    if power > 0 then
      evalLoop value rits (if power > rit.1 then rit.1 else power)
        (timesValue value (power - rit.1).toNat res + rit.2)
    else res

/-- The member `operator()(value)`.  With `power == 0` the map is not empty, so
`rit->second` is the value of its last entry; the `none` branch is not reached. -/
def eval [Zero T] [Add T] [Mul T] (p : Polynomial T) (value : T) : T :=
  if Degree p = 0 then
    match p.reverse with
    | rit :: _ => rit.2
    | [] => 0
  else evalLoop value p.reverse (Degree p) 0

/-- The operator `==`: `left.Data == right.Data`. -/
def eq [DecidableEq T] (left right : Polynomial T) : Bool :=
  decide (left = right)

/-- The operator `!=`. -/
def ne [DecidableEq T] (left right : Polynomial T) : Bool :=
  !(eq left right)

/-- The loop of `divide`; `fuel` bounds the number of evaluations of its guard. -/
def divideLoop [Zero T] [Add T] [Sub T] [Mul T] [Div T] [DecidableEq T] :
    Nat → Polynomial T → Polynomial T → Polynomial T → Option (Polynomial T × Polynomial T)
  | 0, _, _, _ => none
  | fuel + 1, res, left, right =>
    if Degree left ≥ Degree right then
      let quot := monomial (get left (Degree left) / get right (Degree right))
        (Degree left - Degree right)
      divideLoop fuel (add res quot) (sub left (mul right quot)) right
    else some (res, left)

/-- The private member `divide(left, right)`: the pair (quotient, remainder). -/
def divide [Zero T] [Add T] [Sub T] [Mul T] [Div T] [DecidableEq T]
    (fuel : Nat) (left right : Polynomial T) : Option (Polynomial T × Polynomial T) :=
  divideLoop fuel zero left right

/-- The operator `/`. -/
def div [Zero T] [Add T] [Sub T] [Mul T] [Div T] [DecidableEq T]
    (fuel : Nat) (left right : Polynomial T) : Option (Polynomial T) :=
  (divide fuel left right).map Prod.fst

/-- The operator `%`. -/
def mod [Zero T] [Add T] [Sub T] [Mul T] [Div T] [DecidableEq T]
    (fuel : Nat) (left right : Polynomial T) : Option (Polynomial T) :=
  (divide fuel left right).map Prod.snd

/-- The last statements of `operator,`: divide every stored coefficient by the
leading one when `left` is not the zero polynomial. -/
def makeMonic [Zero T] [Div T] (left : Polynomial T) : Polynomial T :=
  if Degree left ≠ -1 then
    let coef := get left (Degree left)
    left.map (fun it => (it.1, it.2 / coef))
  else left

/-- The loop of `operator,`; `loopFuel` bounds the evaluations of its guard and
`fuel` is handed to every `left % right`. -/
def commaLoop [Zero T] [Add T] [Sub T] [Mul T] [Div T] [DecidableEq T] (fuel : Nat) :
    Nat → Polynomial T → Polynomial T → Option (Polynomial T)
  | 0, _, _ => none
  | loopFuel + 1, left, right =>
    if Degree right ≠ -1 then
      match mod fuel left right with
      | none => none
      | some rem => commaLoop fuel loopFuel right rem
    else some (makeMonic left)

/-- The operator `,` (the greatest common divisor). -/
def comma [Zero T] [Add T] [Sub T] [Mul T] [Div T] [DecidableEq T]
    (fuel : Nat) (left right : Polynomial T) : Option (Polynomial T) :=
  commaLoop fuel fuel left right
/-- The member `operator[](power)` as a step on the object: the value returned
and `Data` after the call.  The member is `const` and looks the key up with
`Data.find`, which inserts nothing. -/
def index [Zero T] (p : Polynomial T) (power : Int) : T × Polynomial T :=
  (get p power, p)

/-! ## Formatting, for `T = int`

The stream `out` is the string of the characters written so far; `out << v`
appends the text of `v`. -/

/-- The function `print_monom(out, monom, first_monom)` for `T = int`; `abs` is
`std::abs` on `int`. -/
def print_monom (out : String) (monom : Int × Int) (first_monom : Bool) : String :=
  let out1 := if !first_monom && decide (monom.2 > 0) then out ++ "+" else out
  let out2 := if monom.2 < 0 then out1 ++ "-" else out1
  let out3 := if monom.1 = 0 ∨ monom.2.natAbs ≠ 1 then out2 ++ toString monom.2.natAbs
    else out2
  if monom.1 > 0 then
    let out4 := if monom.2.natAbs ≠ 1 then out3 ++ "*" else out3
    let out5 := out4 ++ "x"
    if monom.1 > 1 then out5 ++ "^" ++ toString monom.1 else out5
  else out3

/-- The operator `<<` on `Polynomial<int>`; `rits` in the fold are the entries
the reverse iterator visits after the first one. -/
def print (out : String) (polynomial : Polynomial Int) : String :=
  if Degree polynomial = -1 then out ++ "0"
  else
    match polynomial.reverse with
    | [] => out
    | rit :: rits =>
      rits.foldl (fun out1 rit1 => print_monom out1 rit1 false) (print_monom out rit true)

/-- The text of one term in the words of §4.8 of the specification: a sign
(`-` for a negative coefficient, `+` for a positive one that is not leading),
the absolute value of the coefficient unless it is `1` at an exponent above `0`,
then for an exponent of at least `1` the separator `*` (only after a shown
coefficient), the variable `x` and, above exponent `1`, `^` and the exponent. -/
def termText (monom : Int × Int) (leading : Bool) : String :=
  (if monom.2 < 0 then "-" else if monom.2 > 0 ∧ leading = false then "+" else "")
    ++ (if monom.1 = 0 ∨ monom.2.natAbs ≠ 1 then toString monom.2.natAbs else "")
    ++ (if monom.1 ≥ 1 then
          (if monom.2.natAbs ≠ 1 then "*" else "") ++ "x"
            ++ (if monom.1 > 1 then "^" ++ toString monom.1 else "")
        else "")

/-- The text of a list of terms in the words of §4.8: the terms in the given
order, the first of them leading. -/
def termsText : List (Int × Int) → Bool → String
  | [], _ => ""
  | monom :: rest, leading => termText monom leading ++ termsText rest false

/-- The text of a polynomial in the words of §4.8: `0` for the zero polynomial
(the one `Degree()` reports as `-1`), else the terms from the highest exponent
to the lowest. -/
def formatText (polynomial : Polynomial Int) : String :=
  if Degree polynomial = -1 then "0" else termsText polynomial.reverse true

/-- The value of a polynomial at `value` in the words of the specification: the
sum of `c * value^k` over the stored terms `(k, c)`. -/
def sumTerms [Semiring T] (p : Polynomial T) (value : T) : T :=
  (p.map (fun e => e.2 * value ^ e.1.toNat)).sum

/-! ## Denotation

Every map denotes the Laurent polynomial that is the sum of its terms.  The
denotation is used in proofs only. -/

section Denotation

/-- The Laurent polynomial a map stands for: the sum of `c * x^k` over its
entries `(k, c)`. -/
noncomputable def sem [Semiring T] (p : Polynomial T) : AddMonoidAlgebra T ℤ :=
  (p.map (fun e => AddMonoidAlgebra.single e.1 e.2)).sum

/-- Divisibility with a cofactor from the polynomial ring: `x = a * d` for some
polynomial `a` with non-negative exponents.  It is used in proofs only. -/
def Divides [Semiring T] (d x : Polynomial T) : Prop :=
  ∃ a : Polynomial T, Sorted a ∧ ZeroFree a ∧ NonNeg a ∧ sem x = sem a * sem d

theorem sem_nil [Semiring T] : sem ([] : Polynomial T) = 0 := rfl

theorem sem_cons [Semiring T] (e : Int × T) (m : Polynomial T) :
    sem (e :: m) = AddMonoidAlgebra.single e.1 e.2 + sem m := by
  simp [sem]

theorem sem_addAt [Semiring T] (power : Int) (v : T) (m : Polynomial T) :
    sem (addAt power v m) = sem m + AddMonoidAlgebra.single power v := by
  induction m with
  | nil => simp [addAt, sem_cons, sem_nil]
  | cons e m ih =>
    obtain ⟨k, c⟩ := e
    unfold addAt
    split_ifs with h1 h2
    · simp only [sem_cons, zero_add]; abel
    · subst h2
      simp only [sem_cons, Finsupp.single_add]; abel
    · simp only [sem_cons, ih]; abel

theorem sem_subAt [Ring T] (power : Int) (v : T) (m : Polynomial T) :
    sem (subAt power v m) = sem m - AddMonoidAlgebra.single power v := by
  induction m with
  | nil => simp [subAt, sem_cons, sem_nil]
  | cons e m ih =>
    obtain ⟨k, c⟩ := e
    unfold subAt
    split_ifs with h1 h2
    · simp only [sem_cons, zero_sub, Finsupp.single_neg]; abel
    · subst h2
      simp only [sem_cons, sub_eq_add_neg, Finsupp.single_add, Finsupp.single_neg]; abel
    · simp only [sem_cons, ih]; abel

theorem sem_normalize [Semiring T] [DecidableEq T] (m : Polynomial T) :
    sem (normalize m) = sem m := by
  induction m with
  | nil => rfl
  | cons e m ih =>
    obtain ⟨k, c⟩ := e
    unfold normalize
    split_ifs with h
    · subst h; simp [sem_cons, ih]
    · simp [sem_cons, ih]

theorem sem_foldl_addAt [Semiring T] (other left : Polynomial T) :
    sem (other.foldl (fun data monom => addAt monom.1 monom.2 data) left)
      = sem left + sem other := by
  induction other generalizing left with
  | nil => simp [sem_nil]
  | cons e other ih => simp only [List.foldl_cons, ih, sem_addAt, sem_cons]; abel

theorem sem_foldl_subAt [Ring T] (other left : Polynomial T) :
    sem (other.foldl (fun data monom => subAt monom.1 monom.2 data) left)
      = sem left - sem other := by
  induction other generalizing left with
  | nil => simp [sem_nil]
  | cons e other ih => simp only [List.foldl_cons, ih, sem_subAt, sem_cons]; abel

theorem sem_add [Semiring T] [DecidableEq T] (left other : Polynomial T) :
    sem (add left other) = sem left + sem other := by
  simp [add, sem_normalize, sem_foldl_addAt]

theorem sem_sub [Ring T] [DecidableEq T] (left other : Polynomial T) :
    sem (sub left other) = sem left - sem other := by
  simp [sub, sem_normalize, sem_foldl_subAt]

theorem sem_mulInner [Semiring T] (it1 : Int × T) (other tmp : Polynomial T) :
    sem (other.foldl (fun tmp2 it2 => addAt (it1.1 + it2.1) (it1.2 * it2.2) tmp2) tmp)
      = sem tmp + AddMonoidAlgebra.single it1.1 it1.2 * sem other := by
  induction other generalizing tmp with
  | nil => simp [sem_nil]
  | cons e other ih =>
    simp only [List.foldl_cons, ih, sem_addAt, sem_cons, mul_add,
      AddMonoidAlgebra.single_mul_single]
    abel

theorem sem_mulLoop [Semiring T] (left other tmp : Polynomial T) :
    sem (mulLoop left other tmp) = sem tmp + sem left * sem other := by
  unfold mulLoop
  induction left generalizing tmp with
  | nil => simp [sem_nil]
  | cons e left ih =>
    simp only [List.foldl_cons, ih, sem_mulInner, sem_cons, add_mul]
    abel

theorem sem_mul [Semiring T] [DecidableEq T] (left other : Polynomial T) :
    sem (mul left other) = sem left * sem other := by
  simp [mul, sem_normalize, sem_mulLoop, sem_nil]

theorem sem_monomial [Semiring T] [DecidableEq T] (monom : T) (power : Int) :
    sem (monomial monom power) = AddMonoidAlgebra.single power monom := by
  unfold monomial
  split_ifs with h
  · simp [insert, sem_cons, sem_nil]
  · simp only [ne_eq, not_not] at h
    subst h; simp [sem_nil]

end Denotation
/-! ## The container invariant and the coefficients -/

section Container

theorem keys_addAt [Zero T] [Add T] (power : Int) (v : T) (m : Polynomial T) :
    ∀ e ∈ addAt power v m, e.1 = power ∨ ∃ e' ∈ m, e'.1 = e.1 := by
  induction m with
  | nil => intro e he; simp [addAt] at he; left; rw [he]
  | cons a m ih =>
    obtain ⟨k, c⟩ := a
    intro e he
    unfold addAt at he
    split_ifs at he with h1 h2
    · rcases List.mem_cons.1 he with h | h
      · left; rw [h]
      · right; exact ⟨e, h, rfl⟩
    · rcases List.mem_cons.1 he with h | h
      · right; exact ⟨(k, c), List.mem_cons_self _ _, by rw [h]⟩
      · right; exact ⟨e, List.mem_cons_of_mem _ h, rfl⟩
    · rcases List.mem_cons.1 he with h | h
      · right; exact ⟨(k, c), List.mem_cons_self _ _, by rw [h]⟩
      · rcases ih e h with h' | ⟨e', he', h'⟩
        · left; exact h'
        · right; exact ⟨e', List.mem_cons_of_mem _ he', h'⟩

theorem keys_subAt [Zero T] [Sub T] (power : Int) (v : T) (m : Polynomial T) :
    ∀ e ∈ subAt power v m, e.1 = power ∨ ∃ e' ∈ m, e'.1 = e.1 := by
  induction m with
  | nil => intro e he; simp [subAt] at he; left; rw [he]
  | cons a m ih =>
    obtain ⟨k, c⟩ := a
    intro e he
    unfold subAt at he
    split_ifs at he with h1 h2
    · rcases List.mem_cons.1 he with h | h
      · left; rw [h]
      · right; exact ⟨e, h, rfl⟩
    · rcases List.mem_cons.1 he with h | h
      · right; exact ⟨(k, c), List.mem_cons_self _ _, by rw [h]⟩
      · right; exact ⟨e, List.mem_cons_of_mem _ h, rfl⟩
    · rcases List.mem_cons.1 he with h | h
      · right; exact ⟨(k, c), List.mem_cons_self _ _, by rw [h]⟩
      · rcases ih e h with h' | ⟨e', he', h'⟩
        · left; exact h'
        · right; exact ⟨e', List.mem_cons_of_mem _ he', h'⟩

theorem keys_insert (power : Int) (v : T) (m : Polynomial T) :
    ∀ e ∈ insert power v m, e = (power, v) ∨ e ∈ m := by
  induction m with
  | nil => intro e he; simp [insert] at he; left; exact he
  | cons a m ih =>
    obtain ⟨k, c⟩ := a
    intro e he
    unfold insert at he
    split_ifs at he with h1 h2
    · rcases List.mem_cons.1 he with h | h
      · left; exact h
      · right; exact h
    · right; exact he
    · rcases List.mem_cons.1 he with h | h
      · right; rw [h]; exact List.mem_cons_self _ _
      · rcases ih e h with h' | h'
        · left; exact h'
        · right; exact List.mem_cons_of_mem _ h'

theorem sorted_cons {a : Int × T} {m : Polynomial T} :
    Sorted (a :: m) ↔ (∀ e ∈ m, a.1 < e.1) ∧ Sorted m := by
  unfold Sorted; exact List.pairwise_cons

theorem sorted_addAt [Zero T] [Add T] (power : Int) (v : T) (m : Polynomial T)
    (hm : Sorted m) : Sorted (addAt power v m) := by
  induction m with
  | nil => simp [addAt, Sorted]
  | cons a m ih =>
    obtain ⟨k, c⟩ := a
    obtain ⟨hk, hs⟩ := sorted_cons.1 hm
    unfold addAt
    split_ifs with h1 h2
    · refine sorted_cons.2 ⟨?_, hm⟩
      intro e he
      rcases List.mem_cons.1 he with h | h
      · rw [h]; exact h1
      · exact lt_trans h1 (hk e h)
    · exact sorted_cons.2 ⟨hk, hs⟩
    · refine sorted_cons.2 ⟨?_, ih hs⟩
      intro e he
      rcases keys_addAt power v m e he with h | ⟨e', he', h⟩
      · rw [h]; exact lt_of_le_of_ne (not_lt.1 h1) (Ne.symm h2)
      · rw [← h]; exact hk e' he'

theorem sorted_subAt [Zero T] [Sub T] (power : Int) (v : T) (m : Polynomial T)
    (hm : Sorted m) : Sorted (subAt power v m) := by
  induction m with
  | nil => simp [subAt, Sorted]
  | cons a m ih =>
    obtain ⟨k, c⟩ := a
    obtain ⟨hk, hs⟩ := sorted_cons.1 hm
    unfold subAt
    split_ifs with h1 h2
    · refine sorted_cons.2 ⟨?_, hm⟩
      intro e he
      rcases List.mem_cons.1 he with h | h
      · rw [h]; exact h1
      · exact lt_trans h1 (hk e h)
    · exact sorted_cons.2 ⟨hk, hs⟩
    · refine sorted_cons.2 ⟨?_, ih hs⟩
      intro e he
      rcases keys_subAt power v m e he with h | ⟨e', he', h⟩
      · rw [h]; exact lt_of_le_of_ne (not_lt.1 h1) (Ne.symm h2)
      · rw [← h]; exact hk e' he'

theorem sorted_insert (power : Int) (v : T) (m : Polynomial T)
    (hm : Sorted m) : Sorted (insert power v m) := by
  induction m with
  | nil => simp [insert, Sorted]
  | cons a m ih =>
    obtain ⟨k, c⟩ := a
    obtain ⟨hk, hs⟩ := sorted_cons.1 hm
    unfold insert
    split_ifs with h1 h2
    · refine sorted_cons.2 ⟨?_, hm⟩
      intro e he
      rcases List.mem_cons.1 he with h | h
      · rw [h]; exact h1
      · exact lt_trans h1 (hk e h)
    · exact hm
    · refine sorted_cons.2 ⟨?_, ih hs⟩
      intro e he
      rcases keys_insert power v m e he with h | h
      · rw [h]; exact lt_of_le_of_ne (not_lt.1 h1) (Ne.symm h2)
      · exact hk e h

theorem mem_normalize [Zero T] [DecidableEq T] (m : Polynomial T) (e : Int × T) :
    e ∈ normalize m ↔ e ∈ m ∧ e.2 ≠ 0 := by
  induction m with
  | nil => simp [normalize]
  | cons a m ih =>
    obtain ⟨k, c⟩ := a
    unfold normalize
    split_ifs with h
    · rw [ih, List.mem_cons]
      constructor
      · rintro ⟨h1, h2⟩; exact ⟨Or.inr h1, h2⟩
      · rintro ⟨h1 | h1, h2⟩
        · rw [h1] at h2; exact absurd h h2
        · exact ⟨h1, h2⟩
    · rw [List.mem_cons, ih, List.mem_cons]
      constructor
      · rintro (h1 | ⟨h1, h2⟩)
        · rw [h1]; exact ⟨Or.inl rfl, h⟩
        · exact ⟨Or.inr h1, h2⟩
      · rintro ⟨h1 | h1, h2⟩
        · exact Or.inl h1
        · exact Or.inr ⟨h1, h2⟩

theorem zeroFree_normalize [Zero T] [DecidableEq T] (m : Polynomial T) :
    ZeroFree (normalize m) :=
  fun e he => ((mem_normalize m e).1 he).2

theorem sorted_normalize [Zero T] [DecidableEq T] (m : Polynomial T) (hm : Sorted m) :
    Sorted (normalize m) := by
  induction m with
  | nil => simp [normalize, Sorted]
  | cons a m ih =>
    obtain ⟨k, c⟩ := a
    obtain ⟨hk, hs⟩ := sorted_cons.1 hm
    unfold normalize
    split_ifs with h
    · exact ih hs
    · exact sorted_cons.2 ⟨fun e he => hk e ((mem_normalize m e).1 he).1, ih hs⟩

theorem normalize_of_zeroFree [Zero T] [DecidableEq T] (m : Polynomial T)
    (hm : ZeroFree m) : normalize m = m := by
  induction m with
  | nil => rfl
  | cons a m ih =>
    obtain ⟨k, c⟩ := a
    unfold normalize
    have hc : c ≠ 0 := hm (k, c) (List.mem_cons_self _ _)
    rw [if_neg hc, ih (fun e he => hm e (List.mem_cons_of_mem _ he))]

end Container
/-! ## Coefficients, equality and degree -/

section Coefficients

theorem sem_apply_of_not_mem [Semiring T] (m : Polynomial T) (k : Int)
    (h : ∀ e ∈ m, e.1 ≠ k) : sem m k = 0 := by
  induction m with
  | nil => simp [sem_nil]
  | cons a m ih =>
    rw [sem_cons, Finsupp.add_apply, ih (fun e he => h e (List.mem_cons_of_mem _ he)),
      Finsupp.single_eq_of_ne (h a (List.mem_cons_self _ _)), add_zero]

theorem find_of_not_mem (m : Polynomial T) (k : Int)
    (h : ∀ e ∈ m, e.1 ≠ k) : find k m = none := by
  induction m with
  | nil => rfl
  | cons a m ih =>
    obtain ⟨j, c⟩ := a
    unfold find
    have hj : k ≠ j := fun hkj => h (j, c) (List.mem_cons_self _ _) hkj.symm
    rw [if_neg hj]
    exact ih (fun e he => h e (List.mem_cons_of_mem _ he))

/-- The coefficient of `x^k` in the denotation is `operator[](k)`. -/
theorem sem_apply [Semiring T] (m : Polynomial T) (hm : Sorted m) (k : Int) :
    sem m k = get m k := by
  induction m with
  | nil => simp [sem_nil, get, find]
  | cons a m ih =>
    obtain ⟨j, c⟩ := a
    obtain ⟨hk, hs⟩ := sorted_cons.1 hm
    rw [sem_cons, Finsupp.add_apply]
    unfold get find
    by_cases hkj : k = j
    · subst hkj
      rw [if_pos rfl, sem_apply_of_not_mem m k (fun e he => ne_of_gt (hk e he)),
        Finsupp.single_eq_same, add_zero]
    · rw [if_neg hkj, Finsupp.single_eq_of_ne (Ne.symm hkj), zero_add, ih hs]
      rfl

theorem get_nil [Zero T] (k : Int) : get ([] : Polynomial T) k = 0 := rfl

theorem find_of_mem (m : Polynomial T) (hm : Sorted m) (k : Int) (c : T)
    (h : (k, c) ∈ m) : find k m = some c := by
  induction m with
  | nil => cases h
  | cons a m ih =>
    obtain ⟨j, d⟩ := a
    obtain ⟨hk, hs⟩ := sorted_cons.1 hm
    unfold find
    rcases List.mem_cons.1 h with h1 | h1
    · injection h1 with h2 h3
      subst h2; subst h3
      rw [if_pos rfl]
    · have : j < k := hk (k, c) h1
      rw [if_neg (ne_of_gt this)]
      exact ih hs h1

theorem get_of_mem [Zero T] (m : Polynomial T) (hm : Sorted m) (k : Int) (c : T)
    (h : (k, c) ∈ m) : get m k = c := by
  unfold get; rw [find_of_mem m hm k c h]

theorem get_of_not_mem [Zero T] (m : Polynomial T) (k : Int)
    (h : ∀ e ∈ m, e.1 ≠ k) : get m k = 0 := by
  unfold get; rw [find_of_not_mem m k h]

/-- Two maps that satisfy the zero-free invariant and have the same
coefficients store the same entries. -/
theorem eq_of_get_eq [Zero T] (p q : Polynomial T) (hp : Sorted p) (hpz : ZeroFree p)
    (hq : Sorted q) (hqz : ZeroFree q) (h : ∀ k, get p k = get q k) : p = q := by
  induction p generalizing q with
  | nil =>
    cases q with
    | nil => rfl
    | cons b q =>
      exfalso
      have := h b.1
      rw [get_nil, get_of_mem (b :: q) hq b.1 b.2 (List.mem_cons_self _ _)] at this
      exact hqz b (List.mem_cons_self _ _) this.symm
  | cons a p ih =>
    cases q with
    | nil =>
      exfalso
      have := h a.1
      rw [get_nil, get_of_mem (a :: p) hp a.1 a.2 (List.mem_cons_self _ _)] at this
      exact hpz a (List.mem_cons_self _ _) this
    | cons b q =>
      obtain ⟨hka, hsp⟩ := sorted_cons.1 hp
      obtain ⟨hkb, hsq⟩ := sorted_cons.1 hq
      have ha : get (a :: p) a.1 = a.2 := get_of_mem _ hp a.1 a.2 (List.mem_cons_self _ _)
      have hb : get (b :: q) b.1 = b.2 := get_of_mem _ hq b.1 b.2 (List.mem_cons_self _ _)
      have hab : a.1 = b.1 := by
        rcases lt_trichotomy a.1 b.1 with hlt | heq | hgt
        · exfalso
          have h0 : get (b :: q) a.1 = 0 := by
            apply get_of_not_mem
            intro e he
            rcases List.mem_cons.1 he with h1 | h1
            · rw [h1]; exact ne_of_gt hlt
            · exact ne_of_gt (lt_trans hlt (hkb e h1))
          exact hpz a (List.mem_cons_self _ _) (by rw [← ha, h a.1, h0])
        · exact heq
        · exfalso
          have h0 : get (a :: p) b.1 = 0 := by
            apply get_of_not_mem
            intro e he
            rcases List.mem_cons.1 he with h1 | h1
            · rw [h1]; exact ne_of_gt hgt
            · exact ne_of_gt (lt_trans hgt (hka e h1))
          exact hqz b (List.mem_cons_self _ _) (by rw [← hb, ← h b.1, h0])
      have hab2 : a.2 = b.2 := by rw [← ha, ← hb, h a.1, hab]
      have hpq : p = q := by
        apply ih q hsp (fun e he => hpz e (List.mem_cons_of_mem _ he)) hsq
          (fun e he => hqz e (List.mem_cons_of_mem _ he))
        intro k
        by_cases hk : k = a.1
        · rw [get_of_not_mem p k (fun e he => by rw [hk]; exact ne_of_gt (hka e he)),
            get_of_not_mem q k (fun e he => by rw [hk, hab]; exact ne_of_gt (hkb e he))]
        · have h1 : get (a :: p) k = get p k := by
            unfold get; rw [find]; rw [if_neg hk]
          have h2 : get (b :: q) k = get q k := by
            unfold get; rw [find]; rw [if_neg (by rw [← hab]; exact hk)]
          rw [← h1, ← h2]; exact h k
      rw [hpq, Prod.ext hab hab2]

/-- Equality of denotations is equality of the stored maps, under the
zero-free invariant. -/
theorem eq_of_sem_eq [Semiring T] (p q : Polynomial T) (hp : Sorted p) (hpz : ZeroFree p)
    (hq : Sorted q) (hqz : ZeroFree q) (h : sem p = sem q) : p = q :=
  eq_of_get_eq p q hp hpz hq hqz
    (fun k => by rw [← sem_apply p hp, ← sem_apply q hq, h])

theorem Degree_nil : Degree ([] : Polynomial T) = -1 := rfl

theorem Degree_eq_of_ne_nil (p : Polynomial T) (hp : p ≠ []) :
    Degree p = (p.getLast hp).1 := by
  unfold Degree; rw [List.getLast?_eq_getLast p hp]

theorem Degree_mem [Zero T] (p : Polynomial T) (hp : p ≠ []) :
    ∃ c, (Degree p, c) ∈ p :=
  ⟨(p.getLast hp).2, by rw [Degree_eq_of_ne_nil p hp]; exact List.getLast_mem hp⟩

theorem le_Degree (p : Polynomial T) (hs : Sorted p) :
    ∀ e ∈ p, e.1 ≤ Degree p := by
  induction p with
  | nil => intro e he; cases he
  | cons a p ih =>
    obtain ⟨hk, hsp⟩ := sorted_cons.1 hs
    intro e he
    cases p with
    | nil =>
      rcases List.mem_cons.1 he with h | h
      · rw [h]; exact le_refl _
      · cases h
    | cons b p =>
      have hD : Degree (a :: b :: p) = Degree (b :: p) := by
        unfold Degree; rw [List.getLast?_cons_cons]
      rw [hD]
      rcases List.mem_cons.1 he with h | h
      · rw [h]
        exact le_trans (le_of_lt (hk b (List.mem_cons_self _ _)))
          (ih hsp b (List.mem_cons_self _ _))
      · exact ih hsp e h

theorem get_of_Degree_lt [Zero T] (p : Polynomial T) (hs : Sorted p) (k : Int)
    (hk : Degree p < k) : get p k = 0 :=
  get_of_not_mem p k (fun e he => ne_of_lt (lt_of_le_of_lt (le_Degree p hs e he) hk))

theorem get_Degree_ne_zero [Zero T] (p : Polynomial T) (hs : Sorted p) (hz : ZeroFree p)
    (hp : p ≠ []) : get p (Degree p) ≠ 0 := by
  obtain ⟨c, hc⟩ := Degree_mem p hp
  rw [get_of_mem p hs _ c hc]
  exact hz _ hc

theorem Degree_nonneg (p : Polynomial T) (hn : NonNeg p) (hp : p ≠ []) :
    0 ≤ Degree p := by
  rw [Degree_eq_of_ne_nil p hp]; exact hn _ (List.getLast_mem hp)

theorem neg_one_le_Degree (p : Polynomial T) (hn : NonNeg p) : -1 ≤ Degree p := by
  by_cases hp : p = []
  · rw [hp]; exact le_refl _
  · have := Degree_nonneg p hn hp; omega

/-- Under the zero-free invariant the degree is below `d` as soon as every
coefficient from `d` on vanishes. -/
theorem Degree_lt_of_get [Zero T] (p : Polynomial T) (hs : Sorted p) (hz : ZeroFree p)
    (d : Int) (hd : 0 ≤ d) (h : ∀ k, d ≤ k → get p k = 0) : Degree p < d := by
  by_cases hp : p = []
  · rw [hp, Degree_nil]; omega
  · by_contra hlt
    exact get_Degree_ne_zero p hs hz hp (h _ (not_lt.1 hlt))

theorem eq_nil_of_Degree [Zero T] (p : Polynomial T) (hn : NonNeg p)
    (h : Degree p = -1) : p = [] := by
  by_contra hp
  have := Degree_nonneg p hn hp
  omega

end Coefficients
/-! ## What the arithmetic operators preserve -/

section Preservation

theorem sorted_foldl_addAt [Zero T] [Add T] (other left : Polynomial T)
    (h : Sorted left) :
    Sorted (other.foldl (fun data monom => addAt monom.1 monom.2 data) left) := by
  induction other generalizing left with
  | nil => exact h
  | cons e other ih => exact ih _ (sorted_addAt e.1 e.2 left h)

theorem sorted_foldl_subAt [Zero T] [Sub T] (other left : Polynomial T)
    (h : Sorted left) :
    Sorted (other.foldl (fun data monom => subAt monom.1 monom.2 data) left) := by
  induction other generalizing left with
  | nil => exact h
  | cons e other ih => exact ih _ (sorted_subAt e.1 e.2 left h)

theorem sorted_add [Zero T] [Add T] [DecidableEq T] (left other : Polynomial T)
    (h : Sorted left) : Sorted (add left other) :=
  sorted_normalize _ (sorted_foldl_addAt other left h)

theorem sorted_sub [Zero T] [Sub T] [DecidableEq T] (left other : Polynomial T)
    (h : Sorted left) : Sorted (sub left other) :=
  sorted_normalize _ (sorted_foldl_subAt other left h)

theorem sorted_mulInner [Zero T] [Add T] [Mul T] (it1 : Int × T) (other tmp : Polynomial T)
    (h : Sorted tmp) :
    Sorted (other.foldl
      (fun tmp2 it2 => addAt (it1.1 + it2.1) (it1.2 * it2.2) tmp2) tmp) := by
  induction other generalizing tmp with
  | nil => exact h
  | cons e other ih => exact ih _ (sorted_addAt _ _ tmp h)

theorem sorted_mulLoop [Zero T] [Add T] [Mul T] (left other tmp : Polynomial T)
    (h : Sorted tmp) : Sorted (mulLoop left other tmp) := by
  unfold mulLoop
  induction left generalizing tmp with
  | nil => exact h
  | cons e left ih => exact ih _ (sorted_mulInner e other tmp h)

theorem sorted_nil : Sorted ([] : Polynomial T) := List.Pairwise.nil

theorem sorted_mul [Zero T] [Add T] [Mul T] [DecidableEq T] (left other : Polynomial T) :
    Sorted (mul left other) :=
  sorted_normalize _ (sorted_mulLoop left other [] sorted_nil)

theorem zeroFree_add [Zero T] [Add T] [DecidableEq T] (left other : Polynomial T) :
    ZeroFree (add left other) := zeroFree_normalize _

theorem zeroFree_sub [Zero T] [Sub T] [DecidableEq T] (left other : Polynomial T) :
    ZeroFree (sub left other) := zeroFree_normalize _

theorem zeroFree_mul [Zero T] [Add T] [Mul T] [DecidableEq T] (left other : Polynomial T) :
    ZeroFree (mul left other) := zeroFree_normalize _

theorem zeroFree_nil [Zero T] : ZeroFree ([] : Polynomial T) :=
  fun e he => by cases he

theorem sorted_monomial [Zero T] [DecidableEq T] (monom : T) (power : Int) :
    Sorted (monomial monom power) := by
  unfold monomial
  split_ifs
  · exact sorted_insert _ _ _ sorted_nil
  · exact sorted_nil

theorem zeroFree_monomial [Zero T] [DecidableEq T] (monom : T) (power : Int) :
    ZeroFree (monomial monom power) := by
  unfold monomial
  split_ifs with h
  · intro e he
    simp only [insert, List.mem_singleton] at he
    rw [he]; exact h
  · exact zeroFree_nil

theorem nonNeg_monomial [Zero T] [DecidableEq T] (monom : T) (power : Int)
    (h : 0 ≤ power) : NonNeg (monomial monom power) := by
  unfold monomial
  split_ifs
  · intro e he
    simp only [insert, List.mem_singleton] at he
    rw [he]; exact h
  · intro e he; cases he

theorem nonNeg_normalize [Zero T] [DecidableEq T] (m : Polynomial T) (h : NonNeg m) :
    NonNeg (normalize m) :=
  fun e he => h e ((mem_normalize m e).1 he).1

theorem nonNeg_addAt [Zero T] [Add T] (power : Int) (v : T) (m : Polynomial T)
    (hp : 0 ≤ power) (h : NonNeg m) : NonNeg (addAt power v m) := by
  intro e he
  rcases keys_addAt power v m e he with h1 | ⟨e', he', h1⟩
  · rw [h1]; exact hp
  · rw [← h1]; exact h e' he'

theorem nonNeg_subAt [Zero T] [Sub T] (power : Int) (v : T) (m : Polynomial T)
    (hp : 0 ≤ power) (h : NonNeg m) : NonNeg (subAt power v m) := by
  intro e he
  rcases keys_subAt power v m e he with h1 | ⟨e', he', h1⟩
  · rw [h1]; exact hp
  · rw [← h1]; exact h e' he'

theorem nonNeg_add [Zero T] [Add T] [DecidableEq T] (left other : Polynomial T)
    (hl : NonNeg left) (ho : NonNeg other) : NonNeg (add left other) := by
  apply nonNeg_normalize
  induction other generalizing left with
  | nil => exact hl
  | cons e other ih =>
    exact ih _ (nonNeg_addAt _ _ _ (ho e (List.mem_cons_self _ _)) hl)
      (fun e' he' => ho e' (List.mem_cons_of_mem _ he'))

theorem nonNeg_sub [Zero T] [Sub T] [DecidableEq T] (left other : Polynomial T)
    (hl : NonNeg left) (ho : NonNeg other) : NonNeg (sub left other) := by
  apply nonNeg_normalize
  induction other generalizing left with
  | nil => exact hl
  | cons e other ih =>
    exact ih _ (nonNeg_subAt _ _ _ (ho e (List.mem_cons_self _ _)) hl)
      (fun e' he' => ho e' (List.mem_cons_of_mem _ he'))

theorem nonNeg_mulInner [Zero T] [Add T] [Mul T] (it1 : Int × T) (other tmp : Polynomial T)
    (h1 : 0 ≤ it1.1) (ho : NonNeg other) (h : NonNeg tmp) :
    NonNeg (other.foldl
      (fun tmp2 it2 => addAt (it1.1 + it2.1) (it1.2 * it2.2) tmp2) tmp) := by
  induction other generalizing tmp with
  | nil => exact h
  | cons e other ih =>
    exact ih _ (fun e' he' => ho e' (List.mem_cons_of_mem _ he'))
      (nonNeg_addAt _ _ _ (add_nonneg h1 (ho e (List.mem_cons_self _ _))) h)

theorem nonNeg_mulLoop [Zero T] [Add T] [Mul T] (left other tmp : Polynomial T)
    (hl : NonNeg left) (ho : NonNeg other) (h : NonNeg tmp) :
    NonNeg (mulLoop left other tmp) := by
  unfold mulLoop
  induction left generalizing tmp with
  | nil => exact h
  | cons e left ih =>
    exact ih _ (fun e' he' => hl e' (List.mem_cons_of_mem _ he'))
      (nonNeg_mulInner e other tmp (hl e (List.mem_cons_self _ _)) ho h)

theorem nonNeg_mul [Zero T] [Add T] [Mul T] [DecidableEq T] (left other : Polynomial T)
    (hl : NonNeg left) (ho : NonNeg other) : NonNeg (mul left other) :=
  nonNeg_normalize _ (nonNeg_mulLoop left other [] hl ho (fun e he => by cases he))

theorem get_add [Semiring T] [DecidableEq T] (left other : Polynomial T)
    (h : Sorted left) (k : Int) : get (add left other) k = get left k + sem other k := by
  rw [← sem_apply _ (sorted_add left other h), sem_add, Finsupp.add_apply,
    sem_apply left h]

end Preservation

/-! ## Division with remainder -/

section Division

/-- One iteration of the loop of `divide` cancels the leading term of the
running remainder. -/
theorem Degree_divide_step [Field T] [DecidableEq T] (left right : Polynomial T)
    (hl : Sorted left) (hr : Sorted right) (hrz : ZeroFree right)
    (hdq : 0 ≤ Degree right) (hge : Degree left ≥ Degree right) :
    Degree (sub left (mul right
      (monomial (get left (Degree left) / get right (Degree right))
        (Degree left - Degree right)))) < Degree left := by
  have hne : right ≠ [] := by
    rintro rfl
    rw [Degree_nil] at hdq
    omega
  have hlc : get right (Degree right) ≠ 0 := get_Degree_ne_zero right hr hrz hne
  apply Degree_lt_of_get _ (sorted_sub _ _ hl) (zeroFree_sub _ _) _ (le_trans hdq hge)
  intro k hk
  rw [← sem_apply _ (sorted_sub _ _ hl), sem_sub, sem_mul, sem_monomial,
    Finsupp.sub_apply, AddMonoidAlgebra.mul_single_apply, sem_apply left hl,
    sem_apply right hr]
  rcases eq_or_lt_of_le hk with h | h
  · rw [← h, sub_sub_cancel, mul_div_cancel₀ _ hlc, sub_self]
  · rw [get_of_Degree_lt left hl k h, get_of_Degree_lt right hr _ (by omega)]
    simp

/-- Partial correctness of the loop of `divide`: a returned pair keeps the
container and zero-free invariants, satisfies the division identity and has a
remainder of degree below the divisor's. -/
theorem divideLoop_sound [Field T] [DecidableEq T] (right : Polynomial T) :
    ∀ (fuel : Nat) (res left a r : Polynomial T), Sorted res → Sorted left →
      ZeroFree res → ZeroFree left → divideLoop fuel res left right = some (a, r) →
      Sorted a ∧ ZeroFree a ∧ Sorted r ∧ ZeroFree r ∧
      sem a * sem right + sem r = sem res * sem right + sem left ∧
      Degree r < Degree right := by
  intro fuel
  induction fuel with
  | zero => intro res left a r _ _ _ _ h; simp [divideLoop] at h
  | succ n ih =>
    intro res left a r hres hl hresz hlz h
    unfold divideLoop at h
    split_ifs at h with hge
    · obtain ⟨h1, h2, h3, h4, h5, h6⟩ := ih _ _ a r (sorted_add _ _ hres)
        (sorted_sub _ _ hl) (zeroFree_add _ _) (zeroFree_sub _ _) h
      refine ⟨h1, h2, h3, h4, ?_, h6⟩
      rw [h5, sem_add, sem_sub, sem_mul]
      ring
    · injection h with h
      injection h with h1 h2
      subst h1; subst h2
      exact ⟨hres, hresz, hl, hlz, rfl, not_le.1 hge⟩

/-- The quotient that the loop of `divide` accumulates has non-negative
exponents: every monomial it adds sits at `Degree(left) - Degree(right) >= 0`. -/
theorem divideLoop_quot_nonNeg [Field T] [DecidableEq T] (right : Polynomial T) :
    ∀ (fuel : Nat) (res left a r : Polynomial T), NonNeg res →
      divideLoop fuel res left right = some (a, r) → NonNeg a := by
  intro fuel
  induction fuel with
  | zero => intro res left a r _ h; simp [divideLoop] at h
  | succ n ih =>
    intro res left a r hres h
    unfold divideLoop at h
    split_ifs at h with hge
    · exact ih _ _ a r (nonNeg_add _ _ hres (nonNeg_monomial _ _ (by omega))) h
    · injection h with h
      injection h with h1 h2
      subst h1
      exact hres

/-- The loop of `divide` keeps the exponents of the remainder non-negative when
those of both operands are. -/
theorem divideLoop_rem_nonNeg [Field T] [DecidableEq T] (right : Polynomial T)
    (hrn : NonNeg right) :
    ∀ (fuel : Nat) (res left a r : Polynomial T), NonNeg left →
      divideLoop fuel res left right = some (a, r) → NonNeg r := by
  intro fuel
  induction fuel with
  | zero => intro res left a r _ h; simp [divideLoop] at h
  | succ n ih =>
    intro res left a r hl h
    unfold divideLoop at h
    split_ifs at h with hge
    · exact ih _ _ a r
        (nonNeg_sub _ _ hl (nonNeg_mul _ _ hrn (nonNeg_monomial _ _ (by omega)))) h
    · injection h with h
      injection h with h1 h2
      subst h2
      exact hl

/-- Termination of the loop of `divide` for a divisor of degree at least `0`:
`Degree(left) - Degree(right) + 2` evaluations of the guard are enough. -/
theorem divideLoop_isSome [Field T] [DecidableEq T] (right : Polynomial T)
    (hr : Sorted right) (hrz : ZeroFree right) (hdq : 0 ≤ Degree right) :
    ∀ (fuel : Nat) (res left : Polynomial T), Sorted left →
      (Degree left - Degree right + 1).toNat + 1 ≤ fuel →
      ∃ x, divideLoop fuel res left right = some x := by
  intro fuel
  induction fuel with
  | zero => intro res left _ h; omega
  | succ n ih =>
    intro res left hl h
    unfold divideLoop
    split_ifs with hge
    · have hstep := Degree_divide_step left right hl hr hrz hdq hge
      exact ih _ _ (sorted_sub _ _ hl) (by omega)
    · exact ⟨_, rfl⟩

/-- Total correctness of `divide`. -/
theorem divide_spec [Field T] [DecidableEq T] (p q : Polynomial T)
    (hp : Sorted p) (hpz : ZeroFree p) (hq : Sorted q) (hqz : ZeroFree q)
    (hdq : 0 ≤ Degree q) (fuel : Nat)
    (hfuel : (Degree p - Degree q + 1).toNat + 1 ≤ fuel) :
    ∃ a r, divide fuel p q = some (a, r) ∧ Sorted a ∧ ZeroFree a ∧ NonNeg a ∧
      Sorted r ∧ ZeroFree r ∧ sem a * sem q + sem r = sem p ∧ Degree r < Degree q := by
  obtain ⟨⟨a, r⟩, hx⟩ := divideLoop_isSome q hq hqz hdq fuel zero p hp hfuel
  obtain ⟨h1, h2, h3, h4, h5, h6⟩ :=
    divideLoop_sound q fuel zero p a r sorted_nil hp zeroFree_nil hpz hx
  refine ⟨a, r, hx, h1, h2, ?_, h3, h4, ?_, h6⟩
  · exact divideLoop_quot_nonNeg q fuel zero p a r (fun e he => by cases he) hx
  · rw [h5]; simp [zero, sem_nil]

end Division
/-! ## Leading terms of products -/

section LeadingTerm

theorem sum_mul_of_single_key [Semiring T] (a : Polynomial T) (ha : Sorted a)
    (g : Int → T) (j0 : Int) (h : ∀ e ∈ a, e.1 ≠ j0 → g e.1 = 0) :
    (a.map (fun e => e.2 * g e.1)).sum = get a j0 * g j0 := by
  induction a with
  | nil => simp [get_nil]
  | cons e m ih =>
    obtain ⟨hk, hs⟩ := sorted_cons.1 ha
    rw [List.map_cons, List.sum_cons, ih hs (fun e' he' => h e' (List.mem_cons_of_mem _ he'))]
    by_cases hj : e.1 = j0
    · have h0 : get m j0 = 0 :=
        get_of_not_mem m j0 (fun e' he' => by rw [← hj]; exact ne_of_gt (hk e' he'))
      have h1 : get (e :: m) j0 = e.2 :=
        get_of_mem (e :: m) ha j0 e.2 (by rw [← hj]; exact List.mem_cons_self _ _)
      rw [h0, h1, hj, zero_mul, add_zero]
    · have h1 : get (e :: m) j0 = get m j0 := by
        unfold get; rw [find, if_neg (Ne.symm hj)]
      rw [h1, h e (List.mem_cons_self _ _) hj, mul_zero, zero_add]

theorem sem_mul_apply [Semiring T] (a d : Polynomial T) (k : Int) :
    (sem a * sem d) k = (a.map (fun e => e.2 * sem d (k - e.1))).sum := by
  induction a with
  | nil => simp [sem_nil]
  | cons e m ih =>
    rw [sem_cons, add_mul, Finsupp.add_apply, ih, List.map_cons, List.sum_cons,
      AddMonoidAlgebra.single_mul_apply, neg_add_eq_sub]

/-- From the sum of the two degrees on, only the leading terms contribute to a
coefficient of a product. -/
theorem sem_mul_apply_top [Semiring T] (a d : Polynomial T) (ha : Sorted a)
    (hd : Sorted d) (k : Int) (hk : Degree a + Degree d ≤ k) :
    (sem a * sem d) k = get a (Degree a) * get d (k - Degree a) := by
  rw [sem_mul_apply, sum_mul_of_single_key a ha (fun j => sem d (k - j)) (Degree a),
    sem_apply d hd]
  intro e he hne
  have hlt : e.1 < Degree a := lt_of_le_of_ne (le_Degree a ha e he) hne
  show sem d (k - e.1) = 0
  rw [sem_apply d hd]
  exact get_of_Degree_lt d hd _ (by omega)

theorem sem_ne_zero [Semiring T] (x : Polynomial T) (hx : Sorted x) (hxz : ZeroFree x)
    (hne : x ≠ []) : sem x ≠ 0 := by
  intro h
  exact hne (eq_of_sem_eq x [] hx hxz sorted_nil zeroFree_nil (by rw [h, sem_nil]))

/-- Over a field the degree of a product of two non-zero polynomials is the sum
of their degrees. -/
theorem Degree_of_sem_mul [Field T] (a d x : Polynomial T) (ha : Sorted a)
    (haz : ZeroFree a) (hd : Sorted d) (hdz : ZeroFree d) (hx : Sorted x)
    (hxz : ZeroFree x) (hane : a ≠ []) (hdne : d ≠ [])
    (h : sem x = sem a * sem d) : x ≠ [] ∧ Degree x = Degree a + Degree d := by
  have htop : get x (Degree a + Degree d) ≠ 0 := by
    rw [← sem_apply x hx, h, sem_mul_apply_top a d ha hd _ (le_refl _), add_sub_cancel_left]
    exact mul_ne_zero (get_Degree_ne_zero a ha haz hane) (get_Degree_ne_zero d hd hdz hdne)
  have hxne : x ≠ [] := by
    rintro rfl
    exact htop (get_nil _)
  refine ⟨hxne, le_antisymm ?_ ?_⟩
  · by_contra hlt
    have hlt' : Degree a + Degree d < Degree x := not_le.1 hlt
    apply get_Degree_ne_zero x hx hxz hxne
    rw [← sem_apply x hx, h, sem_mul_apply_top a d ha hd _ (le_of_lt hlt'),
      get_of_Degree_lt d hd _ (by omega), mul_zero]
  · by_contra hlt
    exact htop (get_of_Degree_lt x hx _ (not_le.1 hlt))

end LeadingTerm

/-! ## Divisibility -/

section Divisibility

theorem divides_nil [Semiring T] (d : Polynomial T) : Divides d [] := by
  refine ⟨[], sorted_nil, zeroFree_nil, ?_, ?_⟩
  · intro e he; cases he
  · rw [sem_nil, zero_mul]

theorem sem_one [Field T] : sem ([(0, 1)] : Polynomial T) = 1 := by
  rw [sem_cons, sem_nil, add_zero]; rfl

theorem divides_refl [Field T] (d : Polynomial T) : Divides d d := by
  refine ⟨[(0, 1)], List.pairwise_singleton _ _, ?_, ?_, by rw [sem_one, one_mul]⟩
  · intro e he
    rw [List.mem_singleton.1 he]
    exact one_ne_zero
  · intro e he
    rw [List.mem_singleton.1 he]

/-- A polynomial with non-negative exponents is a multiple of the constant `1`. -/
theorem divides_of_nonNeg [Field T] (x : Polynomial T) (hx : Sorted x) (hxz : ZeroFree x)
    (hxn : NonNeg x) : Divides [(0, 1)] x :=
  ⟨x, hx, hxz, hxn, by rw [sem_one, mul_one]⟩

/-- A non-zero multiple of `d` has at least the degree of `d`. -/
theorem Degree_le_of_divides [Field T] (d x : Polynomial T) (hd : Sorted d)
    (hdz : ZeroFree d) (hx : Sorted x) (hxz : ZeroFree x) (hdne : d ≠ [])
    (hxne : x ≠ []) (h : Divides d x) : Degree d ≤ Degree x := by
  obtain ⟨a, ha, haz, han, hsem⟩ := h
  have hane : a ≠ [] := by
    rintro rfl
    rw [sem_nil, zero_mul] at hsem
    exact sem_ne_zero x hx hxz hxne hsem
  have := (Degree_of_sem_mul a d x ha haz hd hdz hx hxz hane hdne hsem).2
  have := Degree_nonneg a han hane
  omega

/-- A multiple of a polynomial of degree at least `0` is the zero polynomial or
has degree at least `0`. -/
theorem proper_of_divides [Field T] (d x : Polynomial T) (hd : Sorted d)
    (hdz : ZeroFree d) (hx : Sorted x) (hxz : ZeroFree x) (hdq : 0 ≤ Degree d)
    (h : Divides d x) : x = [] ∨ 0 ≤ Degree x := by
  by_cases hxne : x = []
  · exact Or.inl hxne
  · right
    have hdne : d ≠ [] := by
      rintro rfl
      rw [Degree_nil] at hdq
      omega
    exact le_trans hdq (Degree_le_of_divides d x hd hdz hx hxz hdne hxne h)

/-- A remainder `x % d` that is the zero polynomial makes `d` a divisor of
degree at least `0`. -/
theorem divides_of_mod [Field T] [DecidableEq T] (x d : Polynomial T)
    (hx : Sorted x) (hxz : ZeroFree x) (fuel : Nat)
    (h : mod fuel x d = some zero) : Divides d x ∧ 0 ≤ Degree d := by
  unfold mod at h
  cases hdiv : divide fuel x d with
  | none => rw [hdiv] at h; simp at h
  | some y =>
    obtain ⟨a, r⟩ := y
    rw [hdiv] at h
    simp only [Option.map_some', Option.some.injEq] at h
    subst h
    obtain ⟨h1, h2, _, _, h5, h6⟩ :=
      divideLoop_sound d fuel zero x a _ sorted_nil hx zeroFree_nil hxz hdiv
    have h7 := divideLoop_quot_nonNeg d fuel zero x a _ (fun e he => by cases he) hdiv
    refine ⟨⟨a, h1, h2, h7, ?_⟩, ?_⟩
    · have h8 : sem a * sem d = sem x := by simpa [zero, sem_nil] using h5
      exact h8.symm
    · have : Degree (zero : Polynomial T) = -1 := rfl
      omega

/-- A divisor `d` of degree at least `0` leaves the remainder `x % d` zero. -/
theorem mod_of_divides [Field T] [DecidableEq T] (x d : Polynomial T)
    (hx : Sorted x) (hxz : ZeroFree x) (hd : Sorted d) (hdz : ZeroFree d)
    (hdq : 0 ≤ Degree d) (fuel : Nat)
    (hfuel : (Degree x - Degree d + 1).toNat + 1 ≤ fuel)
    (h : Divides d x) : mod fuel x d = some zero := by
  obtain ⟨a, r, hdiv, h1, h2, h3, h4, h5, h6, h7⟩ :=
    divide_spec x d hx hxz hd hdz hdq fuel hfuel
  obtain ⟨b, hb, hbz, hbn, hsem⟩ := h
  have hdne : d ≠ [] := by
    rintro rfl
    rw [Degree_nil] at hdq
    omega
  have hr : r = [] := by
    by_contra hrne
    have hdr : Divides d r := by
      refine ⟨sub b a, sorted_sub _ _ hb, zeroFree_sub _ _, nonNeg_sub _ _ hbn h3, ?_⟩
      rw [sem_sub, sub_mul, ← hsem, ← h6]
      ring
    have := Degree_le_of_divides d r hd hdz h4 h5 hdne hrne hdr
    omega
  unfold mod; rw [hdiv, hr]; rfl

/-- Divisors of `left` and `right` divide the remainder `left % right`. -/
theorem divides_rem [Field T] [DecidableEq T] (D left right a r : Polynomial T)
    (ha : NonNeg a) (h : sem a * sem right + sem r = sem left)
    (hl : Divides D left) (hr : Divides D right) : Divides D r := by
  obtain ⟨cl, h1, _, h3, h4⟩ := hl
  obtain ⟨cr, _, _, h7, h8⟩ := hr
  refine ⟨sub cl (mul a cr), sorted_sub _ _ h1, zeroFree_sub _ _,
    nonNeg_sub _ _ h3 (nonNeg_mul _ _ ha h7), ?_⟩
  rw [sem_sub, sem_mul, sub_mul, ← h4, ← h, mul_assoc, ← h8]
  ring

/-- Divisors of `right` and of the remainder `left % right` divide `left`. -/
theorem divides_left [Field T] [DecidableEq T] (D left right a r : Polynomial T)
    (ha : NonNeg a) (h : sem a * sem right + sem r = sem left)
    (hr : Divides D right) (hrem : Divides D r) : Divides D left := by
  obtain ⟨cr, _, _, h3, h4⟩ := hr
  obtain ⟨cm, _, _, h7, h8⟩ := hrem
  refine ⟨add (mul a cr) cm, sorted_add _ _ (sorted_mul _ _), zeroFree_add _ _,
    nonNeg_add _ _ (nonNeg_mul _ _ ha h3) h7, ?_⟩
  rw [sem_add, sem_mul, add_mul, ← h8, ← h, mul_assoc, ← h4]

end Divisibility
/-! ## The greatest common divisor -/

section Gcd

theorem Degree_map_snd {U : Type} (f : T → U) (l : Polynomial T) :
    Degree (l.map (fun it => (it.1, f it.2)) : Polynomial U) = Degree l := by
  unfold Degree
  rw [List.getLast?_map]
  cases l.getLast? <;> rfl

theorem sorted_map_snd {U : Type} (f : T → U) (l : Polynomial T) (h : Sorted l) :
    Sorted (l.map (fun it => (it.1, f it.2)) : Polynomial U) := by
  unfold Sorted at *
  rw [List.pairwise_map]
  exact h

theorem sem_map_div [Field T] (c : T) (l : Polynomial T) :
    sem (l.map (fun it => (it.1, it.2 / c)))
      = sem l * AddMonoidAlgebra.single 0 c⁻¹ := by
  induction l with
  | nil => simp [sem_nil]
  | cons e m ih =>
    rw [List.map_cons, sem_cons, sem_cons, ih, add_mul,
      AddMonoidAlgebra.single_mul_single, add_zero, div_eq_mul_inv]

theorem get_map_div [Field T] (c : T) (l : Polynomial T) (k : Int) :
    get (l.map (fun it => (it.1, it.2 / c))) k = get l k / c := by
  induction l with
  | nil => simp [get, find]
  | cons e m ih =>
    unfold get at *
    rw [List.map_cons, find, find]
    split_ifs
    · rfl
    · exact ih

theorem sorted_makeMonic [Zero T] [Div T] (l : Polynomial T) (h : Sorted l) :
    Sorted (makeMonic l) := by
  unfold makeMonic
  split_ifs
  · exact sorted_map_snd (fun c => c / get l (Degree l)) l h
  · exact h

theorem nonNeg_makeMonic [Zero T] [Div T] (l : Polynomial T) (h : NonNeg l) :
    NonNeg (makeMonic l) := by
  unfold makeMonic
  split_ifs
  · intro e he
    obtain ⟨e', he', rfl⟩ := List.mem_map.1 he
    exact h e' he'
  · exact h

theorem Degree_makeMonic [Zero T] [Div T] (l : Polynomial T) :
    Degree (makeMonic l) = Degree l := by
  unfold makeMonic
  split_ifs
  · exact Degree_map_snd (fun c => c / get l (Degree l)) l
  · rfl

theorem makeMonic_eq_nil [Zero T] [Div T] (l : Polynomial T) (h : makeMonic l = []) :
    l = [] := by
  unfold makeMonic at h
  split_ifs at h
  · exact List.map_eq_nil_iff.1 h
  · exact h

theorem makeMonic_nil [Zero T] [Div T] : makeMonic ([] : Polynomial T) = [] := by
  simp [makeMonic, Degree]

theorem zeroFree_makeMonic [Field T] (l : Polynomial T) (hs : Sorted l)
    (hz : ZeroFree l) : ZeroFree (makeMonic l) := by
  unfold makeMonic
  split_ifs with h
  · have hne : l ≠ [] := by rintro rfl; exact h rfl
    have hc := get_Degree_ne_zero l hs hz hne
    intro e he
    obtain ⟨e', he', rfl⟩ := List.mem_map.1 he
    exact div_ne_zero (hz e' he') hc
  · exact hz

/-- The result of the last step of `operator,` has leading coefficient `1`. -/
theorem get_makeMonic_Degree [Field T] (l : Polynomial T) (hs : Sorted l)
    (hz : ZeroFree l) (hne : l ≠ []) (hD : Degree l ≠ -1) :
    get (makeMonic l) (Degree (makeMonic l)) = 1 := by
  rw [Degree_makeMonic]
  unfold makeMonic
  rw [if_pos hD]
  simp only
  rw [get_map_div, div_self (get_Degree_ne_zero l hs hz hne)]

/-- The last step of `operator,` multiplies by a non-zero constant. -/
theorem sem_makeMonic [Field T] (l : Polynomial T) (hs : Sorted l) (hz : ZeroFree l) :
    ∃ u : T, u ≠ 0 ∧ sem (makeMonic l) = sem l * AddMonoidAlgebra.single 0 u := by
  unfold makeMonic
  split_ifs with h
  · have hne : l ≠ [] := by rintro rfl; exact h rfl
    have hc := get_Degree_ne_zero l hs hz hne
    exact ⟨(get l (Degree l))⁻¹, inv_ne_zero hc, sem_map_div _ l⟩
  · refine ⟨1, one_ne_zero, ?_⟩
    have : (AddMonoidAlgebra.single (0 : Int) (1 : T)) = 1 := rfl
    rw [this, mul_one]

/-- Multiples of `D` stay multiples of `D` under scaling by a constant. -/
theorem divides_scale [Field T] [DecidableEq T] (D x y : Polynomial T) (u : T)
    (h : sem y = sem x * AddMonoidAlgebra.single 0 u) (hx : Divides D x) :
    Divides D y := by
  obtain ⟨c, _, _, h3, h4⟩ := hx
  refine ⟨mul c (monomial u 0), sorted_mul _ _, zeroFree_mul _ _,
    nonNeg_mul _ _ h3 (nonNeg_monomial _ _ (le_refl _)), ?_⟩
  rw [sem_mul, sem_monomial, h, h4]
  ring

/-- The multiples of `x` are the multiples of a non-zero constant multiple of
`x`. -/
theorem scale_divides [Field T] [DecidableEq T] (x y z : Polynomial T) (u : T)
    (hu : u ≠ 0) (h : sem y = sem x * AddMonoidAlgebra.single 0 u) (hx : Divides x z) :
    Divides y z := by
  obtain ⟨c, _, _, h3, h4⟩ := hx
  refine ⟨mul c (monomial u⁻¹ 0), sorted_mul _ _, zeroFree_mul _ _,
    nonNeg_mul _ _ h3 (nonNeg_monomial _ _ (le_refl _)), ?_⟩
  have h1 : (AddMonoidAlgebra.single (0 : Int) u⁻¹ : AddMonoidAlgebra T ℤ)
      * AddMonoidAlgebra.single 0 u = 1 := by
    rw [AddMonoidAlgebra.single_mul_single, add_zero, inv_mul_cancel₀ hu]; rfl
  rw [sem_mul, sem_monomial, h, h4]
  calc sem c * sem x = sem c * sem x * 1 := (mul_one _).symm
    _ = sem c * sem x * (AddMonoidAlgebra.single 0 u⁻¹ * AddMonoidAlgebra.single 0 u) := by
        rw [h1]
    _ = sem c * AddMonoidAlgebra.single 0 u⁻¹ * (sem x * AddMonoidAlgebra.single 0 u) := by
        ring

theorem Degree_ge_of_proper (x : Polynomial T) (h : x = [] ∨ 0 ≤ Degree x) :
    -1 ≤ Degree x := by
  rcases h with rfl | h
  · exact le_refl _
  · omega

/-- Total correctness of the loop of `operator,` on multiples of a polynomial
`d0` of degree at least `0`: it returns `makeMonic g0` for a polynomial `g0`
whose divisors are the common divisors of the operands. -/
theorem commaLoop_spec [Field T] [DecidableEq T] (d0 : Polynomial T) (hd : Sorted d0)
    (hdz : ZeroFree d0) (hdq : 0 ≤ Degree d0) (fuel : Nat) :
    ∀ (loopFuel : Nat) (left right : Polynomial T), Sorted left → ZeroFree left →
      Sorted right → ZeroFree right → Divides d0 left → Divides d0 right →
      Degree left + 2 ≤ fuel → Degree right + 2 ≤ fuel →
      (Degree right + 1).toNat + 1 ≤ loopFuel →
      ∃ g0, commaLoop fuel loopFuel left right = some (makeMonic g0) ∧ Sorted g0 ∧
        ZeroFree g0 ∧ Degree g0 + 2 ≤ fuel ∧
        ∀ D : Polynomial T, Divides D g0 ↔ (Divides D left ∧ Divides D right) := by
  intro loopFuel
  induction loopFuel with
  | zero => intro left right _ _ _ _ _ _ _ _ h; omega
  | succ n ih =>
    intro left right hl hlz hr hrz hdl hdr hfl hfr hloop
    have hpl := Degree_ge_of_proper left (proper_of_divides d0 left hd hdz hl hlz hdq hdl)
    have hpr := proper_of_divides d0 right hd hdz hr hrz hdq hdr
    unfold commaLoop
    by_cases hD : Degree right ≠ -1
    · rw [if_pos hD]
      have hdr0 : 0 ≤ Degree right := by
        rcases hpr with rfl | h
        · exact absurd rfl hD
        · exact h
      obtain ⟨a, r, hx, _, _, h3, h4, h5, h6, h7⟩ :=
        divide_spec left right hl hlz hr hrz hdr0 fuel (by omega)
      have hmod : mod fuel left right = some r := by simp [mod, hx]
      rw [hmod]
      have hdrem : Divides d0 r := divides_rem d0 left right a r h3 h6 hdl hdr
      have hr1 := Degree_ge_of_proper r (proper_of_divides d0 r hd hdz h4 h5 hdq hdrem)
      obtain ⟨g0, hg, hg1, hg2, hg3, hg4⟩ :=
        ih right r hr hrz h4 h5 hdr hdrem hfr (by omega) (by omega)
      refine ⟨g0, hg, hg1, hg2, hg3, ?_⟩
      intro D
      rw [hg4 D]
      constructor
      · rintro ⟨h1, h2⟩
        exact ⟨divides_left D left right a r h3 h6 h1 h2, h1⟩
      · rintro ⟨h1, h2⟩
        exact ⟨h2, divides_rem D left right a r h3 h6 h1 h2⟩
    · rw [if_neg hD]
      have hr0 : right = [] := by
        rcases hpr with h | h
        · exact h
        · have := not_not.1 hD
          omega
      refine ⟨left, rfl, hl, hlz, hfl, ?_⟩
      intro D
      rw [hr0]
      exact ⟨fun h => ⟨h, divides_nil D⟩, fun h => h.1⟩

/-- Total correctness of `operator,` on multiples of a polynomial `d0` of degree
at least `0`: it returns a polynomial `g` that divides both operands, is divided
by their common divisors, and is monic unless it is zero. -/
theorem comma_spec [Field T] [DecidableEq T] (d0 p q : Polynomial T)
    (hd : Sorted d0) (hdz : ZeroFree d0) (hdq : 0 ≤ Degree d0)
    (hp : Sorted p) (hpz : ZeroFree p) (hq : Sorted q) (hqz : ZeroFree q)
    (hdp : Divides d0 p) (hdq' : Divides d0 q) (fuel : Nat)
    (hfp : Degree p + 2 ≤ fuel) (hfq : Degree q + 2 ≤ fuel) :
    ∃ g, comma fuel p q = some g ∧ Sorted g ∧ ZeroFree g ∧ Degree g + 2 ≤ fuel ∧
      (g = [] ∨ 0 ≤ Degree g) ∧ (g ≠ [] → get g (Degree g) = 1) ∧
      (g = [] → p = [] ∧ q = []) ∧ Divides g p ∧ Divides g q ∧
      ∀ D : Polynomial T, Divides D p → Divides D q → Divides D g := by
  have hq1 := Degree_ge_of_proper q (proper_of_divides d0 q hd hdz hq hqz hdq hdq')
  obtain ⟨g0, hg, hg1, hg2, hg3, hg4⟩ :=
    commaLoop_spec d0 hd hdz hdq fuel fuel p q hp hpz hq hqz hdp hdq' hfp hfq (by omega)
  obtain ⟨u, hu, hgu⟩ := sem_makeMonic g0 hg1 hg2
  have hdvd := (hg4 g0).1 (divides_refl g0)
  have hproper := proper_of_divides d0 g0 hd hdz hg1 hg2 hdq ((hg4 d0).2 ⟨hdp, hdq'⟩)
  have hnil : ∀ x : Polynomial T, Sorted x → ZeroFree x → Divides ([] : Polynomial T) x →
      x = [] := by
    intro x hx hxz ⟨a, _, _, _, h⟩
    by_contra hne
    rw [sem_nil, mul_zero] at h
    exact sem_ne_zero x hx hxz hne h
  refine ⟨makeMonic g0, hg, sorted_makeMonic g0 hg1, zeroFree_makeMonic g0 hg1 hg2,
    by rw [Degree_makeMonic]; exact hg3, ?_, ?_, ?_, ?_, ?_, ?_⟩
  · rcases hproper with h | h
    · left; rw [h]; exact makeMonic_nil
    · right; rw [Degree_makeMonic]; exact h
  · intro hne
    have hne0 : g0 ≠ [] := by rintro rfl; exact hne makeMonic_nil
    have hD : Degree g0 ≠ -1 := by
      rcases hproper with h | h
      · exact absurd h hne0
      · omega
    exact get_makeMonic_Degree g0 hg1 hg2 hne0 hD
  · intro h0
    have h00 := makeMonic_eq_nil g0 h0
    rw [h00] at hdvd
    exact ⟨hnil p hp hpz hdvd.1, hnil q hq hqz hdvd.2⟩
  · exact scale_divides g0 _ p u hu hgu hdvd.1
  · exact scale_divides g0 _ q u hu hgu hdvd.2
  · intro D h1 h2
    exact divides_scale D g0 _ u hgu ((hg4 D).2 ⟨h1, h2⟩)

end Gcd
/-! ## Runs of `divide` that never return -/

section Stuck

theorem mulLoop_nil_right [Zero T] [Add T] [Mul T] (left tmp : Polynomial T) :
    mulLoop left [] tmp = tmp := by
  unfold mulLoop
  induction left generalizing tmp with
  | nil => rfl
  | cons e m ih => rw [List.foldl_cons, List.foldl_nil]; exact ih tmp

theorem mul_nil_right [Zero T] [Add T] [Mul T] [DecidableEq T] (left : Polynomial T) :
    mul left [] = [] := by
  unfold mul; rw [mulLoop_nil_right]; rfl

theorem add_nil_right [Zero T] [Add T] [DecidableEq T] (res : Polynomial T)
    (h : ZeroFree res) : add res [] = res := by
  unfold add; rw [List.foldl_nil]; exact normalize_of_zeroFree res h

/-- Once the running remainder is the zero polynomial, the loop of `divide`
never ends on a divisor whose `Degree()` is at most `-1`: the guard
`left.Degree() >= right.Degree()` stays true and the state does not change. -/
theorem divideLoop_zero_stuck [Field T] [DecidableEq T] (right : Polynomial T)
    (h : Degree right ≤ -1) :
    ∀ (fuel : Nat) (res : Polynomial T), ZeroFree res →
      divideLoop fuel res [] right = none := by
  intro fuel
  induction fuel with
  | zero => intro res _; rfl
  | succ n ih =>
    intro res hres
    have hge : Degree ([] : Polynomial T) ≥ Degree right := by rw [Degree_nil]; exact h
    have hq : monomial (get ([] : Polynomial T) (Degree ([] : Polynomial T))
        / get right (Degree right)) (Degree ([] : Polynomial T) - Degree right) = [] := by
      simp [get_nil, monomial]
    have hs : sub ([] : Polynomial T) [] = [] := rfl
    unfold divideLoop
    rw [if_pos hge]
    simp only [hq, mul_nil_right, add_nil_right res hres, hs]
    exact ih res hres

end Stuck

section Unfolding

theorem divideLoop_succ_of_ge [Zero T] [Add T] [Sub T] [Mul T] [Div T] [DecidableEq T]
    (fuel : Nat) (res left right : Polynomial T) (h : Degree left ≥ Degree right) :
    divideLoop (fuel + 1) res left right
      = divideLoop fuel
          (add res (monomial (get left (Degree left) / get right (Degree right))
            (Degree left - Degree right)))
          (sub left (mul right (monomial (get left (Degree left) / get right (Degree right))
            (Degree left - Degree right)))) right := by
  rw [divideLoop, if_pos h]

theorem Degree_nonneg_of_ne [Zero T] (q : Polynomial T) (hqn : NonNeg q) (hne : q ≠ zero) :
    0 ≤ Degree q := Degree_nonneg q hqn hne

theorem sorted_one [One T] : Sorted ([(0, 1)] : Polynomial T) :=
  List.pairwise_singleton _ _

theorem zeroFree_one [Field T] : ZeroFree ([(0, 1)] : Polynomial T) := by
  intro e he
  rw [List.mem_singleton.1 he]
  exact one_ne_zero

theorem Degree_one [One T] : Degree ([(0, 1)] : Polynomial T) = 0 := rfl

end Unfolding
/-! ## Constructors and the zero-free invariant -/

section Constructors

theorem zeroFree_insert [Zero T] (power : Int) (v : T) (m : Polynomial T)
    (hv : v ≠ 0) (hm : ZeroFree m) : ZeroFree (insert power v m) := by
  intro e he
  rcases keys_insert power v m e he with h | h
  · rw [h]; exact hv
  · exact hm e h

theorem zeroFree_ofCoeffsLoop [Zero T] [DecidableEq T] (cs : List T) :
    ∀ (i : Int) (data : Polynomial T), ZeroFree data → ZeroFree (ofCoeffsLoop cs i data) := by
  induction cs with
  | nil => intro i data h; exact h
  | cons c cs ih =>
    intro i data h
    unfold ofCoeffsLoop
    apply ih
    split_ifs with hc
    · exact zeroFree_insert i c data hc h
    · exact h

theorem zeroFree_ofRangeLoop [Zero T] [DecidableEq T] (cs : List T) :
    ∀ (i : Int) (data : Polynomial T), ZeroFree data → ZeroFree (ofRangeLoop cs i data) := by
  induction cs with
  | nil => intro i data h; exact h
  | cons c cs ih =>
    intro i data h
    unfold ofRangeLoop
    apply ih
    split_ifs with hc
    · exact zeroFree_insert i c data hc h
    · exact h

/-- Whatever the loop of `divide` returns is zero-free when the dividend is. -/
theorem divideLoop_zeroFree [Zero T] [Add T] [Sub T] [Mul T] [Div T] [DecidableEq T]
    (right : Polynomial T) :
    ∀ (fuel : Nat) (res left a r : Polynomial T), ZeroFree res → ZeroFree left →
      divideLoop fuel res left right = some (a, r) → ZeroFree a ∧ ZeroFree r := by
  intro fuel
  induction fuel with
  | zero => intro res left a r _ _ h; simp [divideLoop] at h
  | succ n ih =>
    intro res left a r hres hl h
    unfold divideLoop at h
    split_ifs at h with hge
    · exact ih _ _ a r (zeroFree_add _ _) (zeroFree_sub _ _) h
    · injection h with h
      injection h with h1 h2
      subst h1; subst h2
      exact ⟨hres, hl⟩

/-- Whatever the loop of `divide` returns keeps the keys in order. -/
theorem divideLoop_sorted [Zero T] [Add T] [Sub T] [Mul T] [Div T] [DecidableEq T]
    (right : Polynomial T) :
    ∀ (fuel : Nat) (res left a r : Polynomial T), Sorted res → Sorted left →
      divideLoop fuel res left right = some (a, r) → Sorted a ∧ Sorted r := by
  intro fuel
  induction fuel with
  | zero => intro res left a r _ _ h; simp [divideLoop] at h
  | succ n ih =>
    intro res left a r hres hl h
    unfold divideLoop at h
    split_ifs at h with hge
    · exact ih _ _ a r (sorted_add _ _ hres) (sorted_sub _ _ hl) h
    · injection h with h
      injection h with h1 h2
      subst h1; subst h2
      exact ⟨hres, hl⟩

/-- Whatever the loop of `operator,` returns is zero-free when the operands
are. -/
theorem commaLoop_zeroFree [Field T] [DecidableEq T] (fuel : Nat) :
    ∀ (loopFuel : Nat) (left right g : Polynomial T), Sorted left → ZeroFree left →
      Sorted right → ZeroFree right → commaLoop fuel loopFuel left right = some g →
      ZeroFree g := by
  intro loopFuel
  induction loopFuel with
  | zero => intro left right g _ _ _ _ h; simp [commaLoop] at h
  | succ n ih =>
    intro left right g hl hlz hr hrz h
    unfold commaLoop at h
    split_ifs at h with hD
    · cases hmod : mod fuel left right with
      | none => rw [hmod] at h; simp at h
      | some rem =>
        rw [hmod] at h
        simp only at h
        unfold mod at hmod
        cases hdiv : divide fuel left right with
        | none => rw [hdiv] at hmod; simp at hmod
        | some x =>
          obtain ⟨a, r⟩ := x
          rw [hdiv] at hmod
          simp only [Option.map_some', Option.some.injEq] at hmod
          subst hmod
          have h1 := divideLoop_zeroFree right fuel zero left a r zeroFree_nil hlz hdiv
          have h2 := divideLoop_sorted right fuel zero left a r sorted_nil hl hdiv
          exact ih right r g hr hrz h2.2 h1.2 h
    · injection h with h
      rw [← h]
      exact zeroFree_makeMonic left hl hlz

end Constructors

/-! ## Evaluation -/

section Evaluation

theorem timesValue_eq [Monoid T] (value : T) (n : Nat) (res : T) :
    timesValue value n res = res * value ^ n := by
  induction n generalizing res with
  | zero => simp [timesValue]
  | succ n ih => rw [timesValue, ih, mul_assoc, ← pow_succ']

/-- The loop of `operator()` on the entries below `power`, in decreasing key
order: it multiplies the running result by `value ^ power` and adds the value of
the remaining terms. -/
theorem evalLoop_eq [Semiring T] (value : T) (rits : List (Int × T)) :
    ∀ (power : Int) (res : T), 0 ≤ power →
      List.Pairwise (fun a b : Int × T => b.1 < a.1) rits →
      (∀ e ∈ rits, 0 ≤ e.1 ∧ e.1 < power) →
      evalLoop value rits power res
        = res * value ^ power.toNat + (rits.map (fun e => e.2 * value ^ e.1.toNat)).sum := by
  induction rits with
  | nil =>
    intro power res hp _ _
    unfold evalLoop
    split_ifs with h
    · simp [timesValue_eq]
    · have : power = 0 := by omega
      simp [this]
  | cons rit rits ih =>
    intro power res hp hs hk
    obtain ⟨hlt, hs'⟩ := List.pairwise_cons.1 hs
    obtain ⟨h0, h1⟩ := hk rit (List.mem_cons_self _ _)
    unfold evalLoop
    rw [if_pos (by omega), if_pos h1,
      ih rit.1 _ h0 hs' (fun e he => ⟨(hk e (List.mem_cons_of_mem _ he)).1, hlt e he⟩),
      timesValue_eq, List.map_cons, List.sum_cons, add_mul, mul_assoc, ← pow_add]
    have : (power - rit.1).toNat + rit.1.toNat = power.toNat := by omega
    rw [this, add_assoc]

theorem sum_map_reverse [Semiring T] (f : Int × T → T) (l : List (Int × T)) :
    (l.reverse.map f).sum = (l.map f).sum := by
  rw [List.map_reverse, List.sum_reverse]

/-- The value `operator()` returns, for non-negative exponents. -/
theorem eval_eq_sum [Semiring T] (p : Polynomial T) (hs : Sorted p) (hn : NonNeg p)
    (value : T) : eval p value = (p.map (fun e => e.2 * value ^ e.1.toNat)).sum := by
  have hrs : List.Pairwise (fun a b : Int × T => b.1 < a.1) p.reverse :=
    List.pairwise_reverse.2 hs
  have hD : Degree p = match p.reverse.head? with | none => -1 | some e => e.1 := by
    unfold Degree; rw [List.head?_reverse]
  have hrn : ∀ e ∈ p.reverse, 0 ≤ e.1 := fun e he => hn e (List.mem_reverse.1 he)
  rw [← sum_map_reverse]
  unfold eval
  rw [hD]
  generalize p.reverse = r at hrs hrn
  cases r with
  | nil => simp [evalLoop]
  | cons rit rits =>
    obtain ⟨hlt, hs'⟩ := List.pairwise_cons.1 hrs
    have h0 : 0 ≤ rit.1 := hrn rit (List.mem_cons_self _ _)
    simp only [List.head?_cons]
    split_ifs with h
    · have hnil : rits = [] := by
        cases rits with
        | nil => rfl
        | cons e es =>
          have h1 := hlt e (List.mem_cons_self _ _)
          have h2 := hrn e (List.mem_cons_of_mem _ (List.mem_cons_self _ _))
          omega
      rw [hnil]
      simp [h]
    · unfold evalLoop
      rw [if_pos (by omega), if_neg (lt_irrefl _),
        evalLoop_eq value rits rit.1 _ h0 hs'
          (fun e he => ⟨hrn e (List.mem_cons_of_mem _ he), hlt e he⟩),
        timesValue_eq, List.map_cons, List.sum_cons]
      simp

/-- A polynomial of `Degree()` `0` evaluates to its constant coefficient. -/
theorem eval_of_Degree_zero [Zero T] [Add T] [Mul T] (p : Polynomial T) (hs : Sorted p)
    (h : Degree p = 0) (value : T) : eval p value = get p 0 := by
  have hne : p ≠ [] := by
    rintro rfl
    rw [Degree_nil] at h
    omega
  have hlast : p.reverse = p.getLast hne :: p.dropLast.reverse := by
    conv_lhs => rw [← List.dropLast_append_getLast hne]
    rw [List.reverse_append]; rfl
  have hkey : (p.getLast hne).1 = 0 := by rw [← Degree_eq_of_ne_nil p hne, h]
  unfold eval
  rw [if_pos h, hlast]
  simp only
  have hmem : ((0 : Int), (p.getLast hne).2) ∈ p := by
    rw [← hkey]; exact List.getLast_mem hne
  rw [get_of_mem p hs 0 _ hmem]

end Evaluation
/-! ## The sequence constructors -/

section SequenceConstructors

theorem find_insert_ne (power k : Int) (v : T) (m : Polynomial T) (h : k ≠ power) :
    find k (insert power v m) = find k m := by
  induction m with
  | nil => simp [insert, find, h]
  | cons a m ih =>
    obtain ⟨j, c⟩ := a
    unfold insert
    split_ifs with h1 h2
    · rw [find, if_neg h]
    · rfl
    · rw [find, find, ih]

theorem find_insert_self (power : Int) (v : T) (m : Polynomial T)
    (h : ∀ e ∈ m, e.1 ≠ power) : find power (insert power v m) = some v := by
  induction m with
  | nil => simp [insert, find]
  | cons a m ih =>
    obtain ⟨j, c⟩ := a
    have hj : j ≠ power := h (j, c) (List.mem_cons_self _ _)
    unfold insert
    split_ifs with h1 h2
    · rw [find, if_pos rfl]
    · exact absurd h2.symm hj
    · rw [find, if_neg (Ne.symm hj)]
      exact ih (fun e he => h e (List.mem_cons_of_mem _ he))

/-- What the loop of the sequence constructor stores at each key: the
coefficient of that index, unless it is `T()`. -/
theorem find_ofCoeffsLoop [Zero T] [DecidableEq T] (cs : List T) :
    ∀ (i : Int) (data : Polynomial T), (∀ e ∈ data, e.1 < i) → ∀ k : Int,
      find k (ofCoeffsLoop cs i data)
        = if k < i then find k data
          else (cs[(k - i).toNat]?).bind (fun c => if c ≠ 0 then some c else none) := by
  induction cs with
  | nil =>
    intro i data hd k
    unfold ofCoeffsLoop
    split_ifs with h
    · rfl
    · simp only [List.getElem?_nil, Option.none_bind]
      exact find_of_not_mem data k (fun e he => by have := hd e he; omega)
  | cons c cs ih =>
    intro i data hd k
    unfold ofCoeffsLoop
    have hd' : ∀ e ∈ (if c ≠ 0 then insert i c data else data), e.1 < i + 1 := by
      intro e he
      split_ifs at he with hc
      · rcases keys_insert i c data e he with h | h
        · rw [h]; show i < i + 1; omega
        · have := hd e h; omega
      · have := hd e he; omega
    rw [ih (i + 1) _ hd' k]
    have hnot : ∀ e ∈ data, e.1 ≠ i := fun e he => ne_of_lt (hd e he)
    rcases lt_trichotomy k i with hlt | heq | hgt
    · rw [if_pos (by omega), if_pos hlt]
      split_ifs with hc
      · exact find_insert_ne i k c data (ne_of_lt hlt)
      · rfl
    · subst heq
      rw [if_pos (show k < k + 1 by omega), if_neg (lt_irrefl _)]
      simp only [sub_self, Int.toNat_zero, List.getElem?_cons_zero, Option.some_bind]
      split_ifs with hc
      · exact find_insert_self k c data hnot
      · exact find_of_not_mem data k hnot
    · rw [if_neg (by omega), if_neg (by omega)]
      have : (k - i).toNat = (k - (i + 1)).toNat + 1 := by omega
      rw [this, List.getElem?_cons_succ]

theorem sorted_ofCoeffsLoop [Zero T] [DecidableEq T] (cs : List T) :
    ∀ (i : Int) (data : Polynomial T), Sorted data → Sorted (ofCoeffsLoop cs i data) := by
  induction cs with
  | nil => intro i data h; exact h
  | cons c cs ih =>
    intro i data h
    unfold ofCoeffsLoop
    apply ih
    split_ifs
    · exact sorted_insert i c data h
    · exact h

theorem ofRangeLoop_eq [Zero T] [DecidableEq T] (cs : List T) :
    ∀ (i : Int) (data : Polynomial T), ofRangeLoop cs i data = ofCoeffsLoop cs i data := by
  induction cs with
  | nil => intro i data; rfl
  | cons c cs ih => intro i data; unfold ofRangeLoop ofCoeffsLoop; exact ih _ _

theorem mem_of_find (m : Polynomial T) (k : Int) (c : T) (h : find k m = some c) :
    (k, c) ∈ m := by
  induction m with
  | nil => simp [find] at h
  | cons a m ih =>
    obtain ⟨j, d⟩ := a
    unfold find at h
    split_ifs at h with hk
    · injection h with h
      rw [hk, h]; exact List.mem_cons_self _ _
    · exact List.mem_cons_of_mem _ (ih h)

theorem find_ofCoeffs [Zero T] [DecidableEq T] (cs : List T) (i : Nat) (h : i < cs.length) :
    find (i : Int) (ofCoeffs cs) = if cs[i] ≠ 0 then some cs[i] else none := by
  unfold ofCoeffs
  rw [find_ofCoeffsLoop cs 0 [] (fun e he => by cases he), if_neg (by omega)]
  simp [List.getElem?_eq_getElem h]

end SequenceConstructors
/-! ## Formatting -/

section Formatting

/-- The function `print_monom` appends to the stream the text that §4.8 gives
for the term. -/
theorem print_monom_eq (out : String) (monom : Int × Int) (first_monom : Bool) :
    print_monom out monom first_monom = out ++ termText monom first_monom := by
  obtain ⟨k, c⟩ := monom
  unfold print_monom termText
  by_cases g0 : c < 0 <;> by_cases g1 : c > 0 <;> by_cases h1 : c.natAbs = 1 <;>
    by_cases hk0 : k = 0 <;> by_cases g2 : k > 0 <;> by_cases g3 : k ≥ 1 <;>
    by_cases g4 : k > 1 <;> first
      | omega
      | (have e0 := eq_false hk0
         (cases first_monom <;>
          simp only [g0, g1, h1, e0, g2, g3, g4, if_true, if_false, ite_true, ite_false,
            not_true_eq_false, not_false_eq_true, true_and, and_true, false_and, and_false,
            or_true, true_or, or_false, false_or, Bool.not_true, Bool.not_false,
            Bool.true_and, Bool.false_and, decide_True, decide_False, ne_eq,
            String.append_assoc, String.append_empty, String.empty_append, gt_iff_lt,
            ge_iff_le, Bool.false_eq_true, reduceCtorEq]))
      | (have e0 := eq_true hk0
         (cases first_monom <;>
          simp only [g0, g1, h1, e0, g2, g3, g4, if_true, if_false, ite_true, ite_false,
            not_true_eq_false, not_false_eq_true, true_and, and_true, false_and, and_false,
            or_true, true_or, or_false, false_or, Bool.not_true, Bool.not_false,
            Bool.true_and, Bool.false_and, decide_True, decide_False, ne_eq,
            String.append_assoc, String.append_empty, String.empty_append, gt_iff_lt,
            ge_iff_le, Bool.false_eq_true, reduceCtorEq]))

theorem foldl_print_monom (rits : List (Int × Int)) (out : String) :
    rits.foldl (fun out1 rit1 => print_monom out1 rit1 false) out
      = out ++ termsText rits false := by
  induction rits generalizing out with
  | nil => simp [termsText]
  | cons rit rits ih =>
    rw [List.foldl_cons, ih, print_monom_eq, termsText, String.append_assoc]

/-- The operator `<<` appends to the stream the text that §4.8 gives for the
polynomial. -/
theorem print_eq (out : String) (polynomial : Polynomial Int) :
    print out polynomial = out ++ formatText polynomial := by
  unfold print formatText
  split_ifs with h
  · rfl
  · cases hr : polynomial.reverse with
    | nil => simp [termsText]
    | cons rit rits =>
      simp only []
      rw [foldl_print_monom, print_monom_eq, termsText, String.append_assoc]

end Formatting
/-! ## Coefficients of a product -/

section Convolution

theorem single_mul_sem_apply [Semiring T] (i : Int) (c : T) (q : Polynomial T) (k : Int) :
    (AddMonoidAlgebra.single i c * sem q) k
      = (q.map (fun f => if i + f.1 = k then c * f.2 else 0)).sum := by
  induction q with
  | nil => simp [sem_nil]
  | cons f q ih =>
    rw [sem_cons, mul_add, Finsupp.add_apply, ih, AddMonoidAlgebra.single_mul_single,
      List.map_cons, List.sum_cons, Finsupp.single_apply]

/-- The coefficient of `x^k` in a product of denotations is the sum of the
products of the coefficients of all pairs of terms whose exponents add up to
`k`. -/
theorem sem_mul_apply_pairs [Semiring T] (p q : Polynomial T) (k : Int) :
    (sem p * sem q) k
      = (p.map (fun e => (q.map (fun f => if e.1 + f.1 = k then e.2 * f.2 else 0)).sum)).sum := by
  induction p with
  | nil => simp [sem_nil]
  | cons e p ih =>
    rw [sem_cons, add_mul, Finsupp.add_apply, ih, single_mul_sem_apply, List.map_cons,
      List.sum_cons]

theorem mem_iff_get_ne_zero [Zero T] (m : Polynomial T) (hs : Sorted m) (hz : ZeroFree m)
    (k : Int) : (∃ c, (k, c) ∈ m) ↔ get m k ≠ 0 := by
  constructor
  · rintro ⟨c, hc⟩
    rw [get_of_mem m hs k c hc]
    exact hz _ hc
  · intro h
    cases hf : find k m with
    | none => exact absurd (by unfold get; rw [hf]) h
    | some c => exact ⟨c, mem_of_find m k c hf⟩

end Convolution
/-! ## The zero divisor -/

section ZeroDivisor

theorem sub_nil_right [Zero T] [Sub T] [DecidableEq T] (left : Polynomial T)
    (h : ZeroFree left) : sub left [] = left := by
  unfold sub; rw [List.foldl_nil]; exact normalize_of_zeroFree left h

/-- With the zero polynomial as divisor the loop of `divide` never ends on a
dividend of `Degree()` at least `-1`: the guard holds, the divisor of the
coefficient division is `right[-1]`, which is `T()`, and `right * quot` is the
zero polynomial whatever `quot` is, so the running remainder stays as it is. -/
theorem divideLoop_zero_divisor [Field T] [DecidableEq T] :
    ∀ (fuel : Nat) (res left : Polynomial T), ZeroFree res → ZeroFree left →
      -1 ≤ Degree left → divideLoop fuel res left [] = none := by
  intro fuel
  induction fuel with
  | zero => intro res left _ _ _; rfl
  | succ n ih =>
    intro res left hres hl hD
    have hge : Degree left ≥ Degree ([] : Polynomial T) := by rw [Degree_nil]; exact hD
    have hq : monomial (get left (Degree left)
        / get ([] : Polynomial T) (Degree ([] : Polynomial T)))
        (Degree left - Degree ([] : Polynomial T)) = [] := by
      simp [get_nil, monomial]
    have hm : mul ([] : Polynomial T) [] = [] := rfl
    unfold divideLoop
    rw [if_pos hge]
    simp only [hq, hm, add_nil_right res hres, sub_nil_right left hl]
    exact ih res left hres hl hD

theorem commaLoop_zero_right [Zero T] [Add T] [Sub T] [Mul T] [Div T] [DecidableEq T]
    (fuel loopFuel : Nat) (left right : Polynomial T) (h : Degree right = -1) :
    commaLoop fuel (loopFuel + 1) left right = some (makeMonic left) := by
  unfold commaLoop
  rw [if_neg (not_not.2 h)]

end ZeroDivisor
/-! ## Uniqueness of the quotient and the remainder -/

section Uniqueness

/-- A quotient with non-negative exponents and a remainder of smaller degree are
the ones `divide` returns. -/
theorem divide_unique_aux [Field T] [DecidableEq T] (p a r q : Polynomial T)
    (hp : Sorted p) (hpz : ZeroFree p) (ha : Sorted a) (haz : ZeroFree a) (han : NonNeg a)
    (hr : Sorted r) (hrz : ZeroFree r) (hq : Sorted q) (hqz : ZeroFree q)
    (hdq : 0 ≤ Degree q) (hsem : sem p = sem a * sem q + sem r)
    (hdeg : Degree r < Degree q) (fuel : Nat)
    (hfuel : (Degree p - Degree q + 1).toNat + 1 ≤ fuel) :
    divide fuel p q = some (a, r) := by
  obtain ⟨a', r', hdiv, h1, h2, h3, h4, h5, h6, h7⟩ :=
    divide_spec p q hp hpz hq hqz hdq fuel hfuel
  have hqne : q ≠ [] := by
    rintro rfl
    rw [Degree_nil] at hdq
    omega
  have hx : sem (sub r' r) = sem (sub a a') * sem q := by
    rw [sem_sub, sem_sub, sub_mul]
    have : sem a' * sem q + sem r' = sem a * sem q + sem r := by rw [h6, hsem]
    have h9 : sem r' = sem a * sem q + sem r - sem a' * sem q :=
      eq_sub_of_add_eq (by rw [add_comm]; exact this)
    rw [h9]
    ring
  have hxlt : Degree (sub r' r) < Degree q := by
    apply Degree_lt_of_get _ (sorted_sub _ _ h4) (zeroFree_sub _ _) _ hdq
    intro k hk
    rw [← sem_apply _ (sorted_sub _ _ h4), sem_sub, Finsupp.sub_apply, sem_apply r' h4,
      sem_apply r hr, get_of_Degree_lt r' h4 k (by omega), get_of_Degree_lt r hr k (by omega),
      sub_self]
  have hc : sub a a' = [] := by
    by_contra hcne
    have hcn : NonNeg (sub a a') := nonNeg_sub _ _ han h3
    have h8 := (Degree_of_sem_mul (sub a a') q (sub r' r) (sorted_sub _ _ ha)
      (zeroFree_sub _ _) hq hqz (sorted_sub _ _ h4) (zeroFree_sub _ _) hcne hqne hx).2
    have := Degree_nonneg _ hcn hcne
    omega
  have haa : a' = a := by
    apply eq_of_sem_eq _ _ h1 h2 ha haz
    have : sem (sub a a') = 0 := by rw [hc, sem_nil]
    rw [sem_sub] at this
    exact (sub_eq_zero.1 this).symm
  have hrr : r' = r := by
    apply eq_of_sem_eq _ _ h4 h5 hr hrz
    have : sem (sub r' r) = 0 := by rw [hx, hc, sem_nil, zero_mul]
    rw [sem_sub] at this
    exact sub_eq_zero.1 this
  rw [hdiv, haa, hrr]

theorem divide_of_Degree_lt [Zero T] [Add T] [Sub T] [Mul T] [Div T] [DecidableEq T]
    (p q : Polynomial T) (fuel : Nat) (h : Degree p < Degree q) :
    divide (fuel + 1) p q = some (zero, p) := by
  unfold divide divideLoop
  rw [if_neg (not_le.2 h)]

end Uniqueness

/-! ## Evaluation of sums and products -/

section EvaluationHom

theorem sumTerms_nil [Semiring T] (v : T) : sumTerms ([] : Polynomial T) v = 0 := rfl

theorem sumTerms_cons [Semiring T] (e : Int × T) (m : Polynomial T) (v : T) :
    sumTerms (e :: m) v = e.2 * v ^ e.1.toNat + sumTerms m v := by
  simp [sumTerms]

theorem sumTerms_addAt [Semiring T] (power : Int) (c : T) (m : Polynomial T) (v : T) :
    sumTerms (addAt power c m) v = sumTerms m v + c * v ^ power.toNat := by
  induction m with
  | nil => simp [addAt, sumTerms_cons, sumTerms_nil]
  | cons e m ih =>
    obtain ⟨k, d⟩ := e
    unfold addAt
    split_ifs with h1 h2
    · simp only [sumTerms_cons, zero_add]; abel
    · subst h2
      simp only [sumTerms_cons, add_mul]; abel
    · simp only [sumTerms_cons, ih]; abel

theorem sumTerms_normalize [Semiring T] [DecidableEq T] (m : Polynomial T) (v : T) :
    sumTerms (normalize m) v = sumTerms m v := by
  induction m with
  | nil => rfl
  | cons e m ih =>
    obtain ⟨k, c⟩ := e
    unfold normalize
    split_ifs with h
    · subst h; simp [sumTerms_cons, ih]
    · simp [sumTerms_cons, ih]

theorem sumTerms_add [Semiring T] [DecidableEq T] (left other : Polynomial T) (v : T) :
    sumTerms (add left other) v = sumTerms left v + sumTerms other v := by
  unfold add
  rw [sumTerms_normalize]
  induction other generalizing left with
  | nil => simp [sumTerms_nil]
  | cons e other ih =>
    rw [List.foldl_cons, ih, sumTerms_addAt, sumTerms_cons]; abel

theorem sumTerms_mulInner [CommSemiring T] (it1 : Int × T) (other tmp : Polynomial T)
    (v : T) (h1 : 0 ≤ it1.1) (ho : NonNeg other) :
    sumTerms (other.foldl
        (fun tmp2 it2 => addAt (it1.1 + it2.1) (it1.2 * it2.2) tmp2) tmp) v
      = sumTerms tmp v + it1.2 * v ^ it1.1.toNat * sumTerms other v := by
  induction other generalizing tmp with
  | nil => simp [sumTerms_nil]
  | cons e other ih =>
    have he : 0 ≤ e.1 := ho e (List.mem_cons_self _ _)
    have hpow : (it1.1 + e.1).toNat = it1.1.toNat + e.1.toNat := by omega
    rw [List.foldl_cons, ih _ (fun e' he' => ho e' (List.mem_cons_of_mem _ he')),
      sumTerms_addAt, sumTerms_cons, hpow, pow_add]
    ring

theorem sumTerms_mulLoop [CommSemiring T] (left other tmp : Polynomial T) (v : T)
    (hl : NonNeg left) (ho : NonNeg other) :
    sumTerms (mulLoop left other tmp) v
      = sumTerms tmp v + sumTerms left v * sumTerms other v := by
  unfold mulLoop
  induction left generalizing tmp with
  | nil => simp [sumTerms_nil]
  | cons e left ih =>
    rw [List.foldl_cons, ih _ (fun e' he' => hl e' (List.mem_cons_of_mem _ he')),
      sumTerms_mulInner e other tmp v (hl e (List.mem_cons_self _ _)) ho, sumTerms_cons]
    ring

theorem sumTerms_mul [CommSemiring T] [DecidableEq T] (left other : Polynomial T) (v : T)
    (hl : NonNeg left) (ho : NonNeg other) :
    sumTerms (mul left other) v = sumTerms left v * sumTerms other v := by
  unfold mul
  rw [sumTerms_normalize, sumTerms_mulLoop left other [] v hl ho, sumTerms_nil, zero_add]

theorem eval_eq_sumTerms [Semiring T] (p : Polynomial T) (hs : Sorted p) (hn : NonNeg p)
    (v : T) : eval p v = sumTerms p v :=
  eval_eq_sum p hs hn v

end EvaluationHom
/-! # The claims of the specification -/

/-! ## Ring laws (claims C8, C9, C10) -/

section RingLaws

/-- C8. Distributivity: over a commutative coefficient ring, `p * (q + r)` and
`p * q + p * r` store the same mapping, so `operator==` holds between them. -/
theorem mul_add_distrib [CommRing T] [DecidableEq T] (p q r : Polynomial T) :
    eq (mul p (add q r)) (add (mul p q) (mul p r)) = true := by
  have h : mul p (add q r) = add (mul p q) (mul p r) := by
    apply eq_of_sem_eq _ _ (sorted_mul _ _) (zeroFree_mul _ _)
      (sorted_add _ _ (sorted_mul _ _)) (zeroFree_add _ _)
    rw [sem_mul, sem_add, sem_add, sem_mul, sem_mul, mul_add]
  simp [eq, h]

/-- C9. Commutativity of multiplication: when the multiplication of the
coefficients commutes, `p * q` and `q * p` store the same mapping, so
`operator==` holds between them. -/
theorem mul_comm_eq [CommSemiring T] [DecidableEq T] (p q : Polynomial T) :
    eq (mul p q) (mul q p) = true := by
  have h : mul p q = mul q p := by
    apply eq_of_sem_eq _ _ (sorted_mul _ _) (zeroFree_mul _ _)
      (sorted_mul _ _) (zeroFree_mul _ _)
    rw [sem_mul, sem_mul, mul_comm]
  simp [eq, h]

/-- C10. Associativity of addition: `(p + q) + r` and `p + (q + r)` store the
same mapping, so `operator==` holds between them; the terms an intermediate sum
cancels are removed by `normalize` on both sides.  Only the key order of `p` is
used, so the statement covers in particular all zero-free operands. -/
theorem add_assoc_eq [Semiring T] [DecidableEq T] (p q r : Polynomial T)
    (hp : Sorted p) :
    eq (add (add p q) r) (add p (add q r)) = true := by
  have h : add (add p q) r = add p (add q r) := by
    apply eq_of_sem_eq _ _ (sorted_add _ _ (sorted_add _ _ hp)) (zeroFree_add _ _)
      (sorted_add _ _ hp) (zeroFree_add _ _)
    rw [sem_add, sem_add, sem_add, sem_add, add_assoc]
  simp [eq, h]

/-- The sums `((x^2 + 1) + 1) + (-1)` and `(x^2 + 1) + (1 + (-1))` over the
rationals: the inner sum of the second cancels to the zero polynomial. -/
theorem add_assoc_eq_witness :
    Sorted ([(0, 1), (2, 1)] : Polynomial ℚ) ∧
    eq (add (add ([(0, 1), (2, 1)] : Polynomial ℚ) [(0, 1)]) [(0, -1)])
      (add [(0, 1), (2, 1)] (add [(0, 1)] [(0, -1)])) = true :=
  ⟨by decide, add_assoc_eq _ _ _ (by decide)⟩

end RingLaws


/-! ## Division (claims C1, C2) -/

section DivisionClaims

/-- C1. Division identity: over a coefficient field, for every polynomial `p`
and every polynomial `q` (exponents non-negative, the data model of §3) that is
not identically zero, `divide(p, q)` returns a pair `(quot, rem)` with
`quot = p / q` and `rem = p % q`, and `(p / q) * q + (p % q) == p`.  The guard of
the loop is evaluated at most `Degree(p) - Degree(q) + 2` times. -/
theorem divide_identity [Field T] [DecidableEq T] (p q : Polynomial T)
    (hp : Sorted p) (hpz : ZeroFree p) (hq : Sorted q) (hqz : ZeroFree q)
    (hqn : NonNeg q) (hne : q ≠ zero) (fuel : Nat)
    (hfuel : (Degree p - Degree q + 1).toNat < fuel) :
    ∃ quot rem, divide fuel p q = some (quot, rem) ∧ div fuel p q = some quot ∧
      mod fuel p q = some rem ∧ eq (add (mul quot q) rem) p = true := by
  obtain ⟨a, r, h, _, _, _, _, _, h5, _⟩ :=
    divide_spec p q hp hpz hq hqz (Degree_nonneg_of_ne q hqn hne) fuel hfuel
  refine ⟨a, r, h, by simp [div, h], by simp [mod, h], ?_⟩
  have : add (mul a q) r = p := by
    apply eq_of_sem_eq _ _ (sorted_add _ _ (sorted_mul _ _)) (zeroFree_add _ _) hp hpz
    rw [sem_add, sem_mul, h5]
  simp [eq, this]

/-- The division of `x^3 + 3x^2 + 2x + 1` by `2x + 1` over the rationals. -/
theorem divide_identity_witness :
    Sorted ([(0, 1), (1, 2), (2, 3), (3, 1)] : Polynomial ℚ) ∧
    ZeroFree ([(0, 1), (1, 2), (2, 3), (3, 1)] : Polynomial ℚ) ∧
    Sorted ([(0, 1), (1, 2)] : Polynomial ℚ) ∧
    ZeroFree ([(0, 1), (1, 2)] : Polynomial ℚ) ∧
    NonNeg ([(0, 1), (1, 2)] : Polynomial ℚ) ∧
    ([(0, 1), (1, 2)] : Polynomial ℚ) ≠ zero ∧
    (Degree ([(0, 1), (1, 2), (2, 3), (3, 1)] : Polynomial ℚ)
      - Degree ([(0, 1), (1, 2)] : Polynomial ℚ) + 1).toNat < 4 ∧
    ∃ quot rem,
      divide 4 ([(0, 1), (1, 2), (2, 3), (3, 1)] : Polynomial ℚ) [(0, 1), (1, 2)]
        = some (quot, rem) ∧
      div 4 ([(0, 1), (1, 2), (2, 3), (3, 1)] : Polynomial ℚ) [(0, 1), (1, 2)]
        = some quot ∧
      mod 4 ([(0, 1), (1, 2), (2, 3), (3, 1)] : Polynomial ℚ) [(0, 1), (1, 2)]
        = some rem ∧
      eq (add (mul quot [(0, 1), (1, 2)]) rem) [(0, 1), (1, 2), (2, 3), (3, 1)] = true :=
  ⟨by decide, by decide, by decide, by decide, by decide, by decide, by decide,
    divide_identity _ _ (by decide) (by decide) (by decide) (by decide) (by decide)
      (by decide) 4 (by decide)⟩

/-- C2. Remainder degree bound: over a coefficient field, for every polynomial
`p` and every polynomial `q` (exponents non-negative, the data model of §3) that
is not identically zero, `p % q` is returned and `Degree(p % q) < Degree(q)`.
`Degree` of the zero polynomial is `-1`, so a non-zero constant divisor leaves
the remainder zero (`p` too having the non-negative exponents of §3). -/
theorem mod_Degree_lt [Field T] [DecidableEq T] (p q : Polynomial T)
    (hp : Sorted p) (hpz : ZeroFree p) (hq : Sorted q) (hqz : ZeroFree q)
    (hqn : NonNeg q) (hne : q ≠ zero) (fuel : Nat)
    (hfuel : (Degree p - Degree q + 1).toNat < fuel) :
    ∃ rem, mod fuel p q = some rem ∧ Degree rem < Degree q ∧
      Degree (zero : Polynomial T) = -1 ∧
      (NonNeg p → Degree q = 0 → rem = zero) := by
  obtain ⟨a, r, h, _, _, _, _, _, _, h6⟩ :=
    divide_spec p q hp hpz hq hqz (Degree_nonneg_of_ne q hqn hne) fuel hfuel
  refine ⟨r, by simp [mod, h], h6, rfl, ?_⟩
  intro hpn hq0
  have hrn : NonNeg r := divideLoop_rem_nonNeg q hqn fuel zero p a r hpn h
  by_contra hr
  have := Degree_nonneg r hrn hr
  omega

/-- The remainder of `x^3 + 3x^2 + 2x + 1` by the constant `2` over the
rationals. -/
theorem mod_Degree_lt_witness :
    Sorted ([(0, 1), (1, 2), (2, 3), (3, 1)] : Polynomial ℚ) ∧
    ZeroFree ([(0, 1), (1, 2), (2, 3), (3, 1)] : Polynomial ℚ) ∧
    Sorted ([(0, 2)] : Polynomial ℚ) ∧
    ZeroFree ([(0, 2)] : Polynomial ℚ) ∧
    NonNeg ([(0, 2)] : Polynomial ℚ) ∧
    ([(0, 2)] : Polynomial ℚ) ≠ zero ∧
    (Degree ([(0, 1), (1, 2), (2, 3), (3, 1)] : Polynomial ℚ)
      - Degree ([(0, 2)] : Polynomial ℚ) + 1).toNat < 5 ∧
    ∃ rem,
      mod 5 ([(0, 1), (1, 2), (2, 3), (3, 1)] : Polynomial ℚ) [(0, 2)] = some rem ∧
      Degree rem < Degree ([(0, 2)] : Polynomial ℚ) ∧
      Degree (zero : Polynomial ℚ) = -1 ∧
      (NonNeg ([(0, 1), (1, 2), (2, 3), (3, 1)] : Polynomial ℚ) →
        Degree ([(0, 2)] : Polynomial ℚ) = 0 → rem = zero) :=
  ⟨by decide, by decide, by decide, by decide, by decide, by decide, by decide,
    mod_Degree_lt _ _ (by decide) (by decide) (by decide) (by decide) (by decide)
      (by decide) 5 (by decide)⟩

end DivisionClaims

/-! ## The greatest common divisor (claims C3, C4, C5) -/

section GcdClaims

/-- C3. The GCD divides both inputs: over a coefficient field, for all
polynomials `p` and `q` (exponents non-negative, the data model of §3) that are
not both identically zero, `operator,` returns a polynomial `g`, and `p % g`
and `q % g` are both the zero polynomial. -/
theorem comma_divides [Field T] [DecidableEq T] (p q : Polynomial T)
    (hp : Sorted p) (hpz : ZeroFree p) (hpn : NonNeg p)
    (hq : Sorted q) (hqz : ZeroFree q) (hqn : NonNeg q)
    (hne : ¬ (p = zero ∧ q = zero)) (fuel : Nat)
    (hfp : Degree p + 2 ≤ fuel) (hfq : Degree q + 2 ≤ fuel) :
    ∃ g, comma fuel p q = some g ∧ mod fuel p g = some zero ∧
      mod fuel q g = some zero := by
  obtain ⟨g, hg, hg1, hg2, _, hg4, _, hg6, hgp, hgq, _⟩ :=
    comma_spec [(0, 1)] p q sorted_one zeroFree_one (le_of_eq Degree_one.symm) hp hpz hq hqz
      (divides_of_nonNeg p hp hpz hpn) (divides_of_nonNeg q hq hqz hqn) fuel hfp hfq
  have hgd : 0 ≤ Degree g := by
    rcases hg4 with h | h
    · exact absurd (hg6 h) hne
    · exact h
  have hp1 := neg_one_le_Degree p hpn
  have hq1 := neg_one_le_Degree q hqn
  exact ⟨g, hg,
    mod_of_divides p g hp hpz hg1 hg2 hgd fuel (by omega) hgp,
    mod_of_divides q g hq hqz hg1 hg2 hgd fuel (by omega) hgq⟩

/-- The GCD of `x^2 - 1` and `2x + 2` over the rationals. -/
theorem comma_divides_witness :
    Sorted ([(0, -1), (2, 1)] : Polynomial ℚ) ∧
    ZeroFree ([(0, -1), (2, 1)] : Polynomial ℚ) ∧
    NonNeg ([(0, -1), (2, 1)] : Polynomial ℚ) ∧
    Sorted ([(0, 2), (1, 2)] : Polynomial ℚ) ∧
    ZeroFree ([(0, 2), (1, 2)] : Polynomial ℚ) ∧
    NonNeg ([(0, 2), (1, 2)] : Polynomial ℚ) ∧
    ¬ (([(0, -1), (2, 1)] : Polynomial ℚ) = zero ∧
        ([(0, 2), (1, 2)] : Polynomial ℚ) = zero) ∧
    Degree ([(0, -1), (2, 1)] : Polynomial ℚ) + 2 ≤ (4 : Nat) ∧
    Degree ([(0, 2), (1, 2)] : Polynomial ℚ) + 2 ≤ (4 : Nat) ∧
    ∃ g, comma 4 ([(0, -1), (2, 1)] : Polynomial ℚ) [(0, 2), (1, 2)] = some g ∧
      mod 4 ([(0, -1), (2, 1)] : Polynomial ℚ) g = some zero ∧
      mod 4 ([(0, 2), (1, 2)] : Polynomial ℚ) g = some zero :=
  ⟨by decide, by decide, by decide, by decide, by decide, by decide, by decide,
    by decide, by decide,
    comma_divides _ _ (by decide) (by decide) (by decide) (by decide) (by decide)
      (by decide) (by decide) 4 (by decide) (by decide)⟩

/-- C4. The GCD is monic: over a coefficient field, for all polynomials `p` and
`q` (exponents non-negative, the data model of §3), `operator,` returns a
polynomial `g`; if `g` is not identically zero then `g[g.Degree()]` is `1`, and
`g` is identically zero only when `p` and `q` both are. -/
theorem comma_monic [Field T] [DecidableEq T] (p q : Polynomial T)
    (hp : Sorted p) (hpz : ZeroFree p) (hpn : NonNeg p)
    (hq : Sorted q) (hqz : ZeroFree q) (hqn : NonNeg q) (fuel : Nat)
    (hfp : Degree p + 2 ≤ fuel) (hfq : Degree q + 2 ≤ fuel) :
    ∃ g, comma fuel p q = some g ∧ (g ≠ zero → get g (Degree g) = 1) ∧
      (g = zero → p = zero ∧ q = zero) := by
  obtain ⟨g, hg, _, _, _, _, hg5, hg6, _, _, _⟩ :=
    comma_spec [(0, 1)] p q sorted_one zeroFree_one (le_of_eq Degree_one.symm) hp hpz hq hqz
      (divides_of_nonNeg p hp hpz hpn) (divides_of_nonNeg q hq hqz hqn) fuel hfp hfq
  exact ⟨g, hg, hg5, hg6⟩

/-- The GCD of `3x^2 - 3` and `2x + 2` over the rationals. -/
theorem comma_monic_witness :
    Sorted ([(0, -3), (2, 3)] : Polynomial ℚ) ∧
    ZeroFree ([(0, -3), (2, 3)] : Polynomial ℚ) ∧
    NonNeg ([(0, -3), (2, 3)] : Polynomial ℚ) ∧
    Sorted ([(0, 2), (1, 2)] : Polynomial ℚ) ∧
    ZeroFree ([(0, 2), (1, 2)] : Polynomial ℚ) ∧
    NonNeg ([(0, 2), (1, 2)] : Polynomial ℚ) ∧
    Degree ([(0, -3), (2, 3)] : Polynomial ℚ) + 2 ≤ (4 : Nat) ∧
    Degree ([(0, 2), (1, 2)] : Polynomial ℚ) + 2 ≤ (4 : Nat) ∧
    ∃ g, comma 4 ([(0, -3), (2, 3)] : Polynomial ℚ) [(0, 2), (1, 2)] = some g ∧
      (g ≠ zero → get g (Degree g) = 1) ∧
      (g = zero → ([(0, -3), (2, 3)] : Polynomial ℚ) = zero ∧
        ([(0, 2), (1, 2)] : Polynomial ℚ) = zero) :=
  ⟨by decide, by decide, by decide, by decide, by decide, by decide, by decide,
    by decide,
    comma_monic _ _ (by decide) (by decide) (by decide) (by decide) (by decide)
      (by decide) 4 (by decide) (by decide)⟩

/-- C5. The GCD is greatest: over a coefficient field, for all polynomials `p`,
`q` and `d`, if `p % d` and `q % d` are returned and are the zero polynomial
then `operator,` returns a polynomial `g` and `g % d` is the zero polynomial.
The hypotheses make `d` not identically zero: no remainder by the zero
polynomial is the zero polynomial. -/
theorem comma_greatest [Field T] [DecidableEq T] (p q d : Polynomial T)
    (hp : Sorted p) (hpz : ZeroFree p) (hq : Sorted q) (hqz : ZeroFree q)
    (hd : Sorted d) (hdz : ZeroFree d)
    (fuel : Nat) (hfp : Degree p + 2 ≤ fuel) (hfq : Degree q + 2 ≤ fuel)
    (fuelp fuelq : Nat)
    (hpd : mod fuelp p d = some zero) (hqd : mod fuelq q d = some zero) :
    ∃ g, comma fuel p q = some g ∧ mod fuel g d = some zero := by
  obtain ⟨hdp, hdq⟩ := divides_of_mod p d hp hpz fuelp hpd
  obtain ⟨hdq', _⟩ := divides_of_mod q d hq hqz fuelq hqd
  obtain ⟨g, hg, hg1, hg2, hg3, hg4, _, _, _, _, hgreat⟩ :=
    comma_spec d p q hd hdz hdq hp hpz hq hqz hdp hdq' fuel hfp hfq
  have := Degree_ge_of_proper g hg4
  exact ⟨g, hg, mod_of_divides g d hg1 hg2 hd hdz hdq fuel (by omega) (hgreat d hdp hdq')⟩

/-- The common divisor `x^(-2) + 1` of `x^(-1) + x` and `x + x^3` over the
rationals. -/
theorem comma_greatest_witness :
    Sorted ([(-1, 1), (1, 1)] : Polynomial ℚ) ∧
    ZeroFree ([(-1, 1), (1, 1)] : Polynomial ℚ) ∧
    Sorted ([(1, 1), (3, 1)] : Polynomial ℚ) ∧
    ZeroFree ([(1, 1), (3, 1)] : Polynomial ℚ) ∧
    Sorted ([(-2, 1), (0, 1)] : Polynomial ℚ) ∧
    ZeroFree ([(-2, 1), (0, 1)] : Polynomial ℚ) ∧
    Degree ([(-1, 1), (1, 1)] : Polynomial ℚ) + 2 ≤ (5 : Nat) ∧
    Degree ([(1, 1), (3, 1)] : Polynomial ℚ) + 2 ≤ (5 : Nat) ∧
    mod 3 ([(-1, 1), (1, 1)] : Polynomial ℚ) [(-2, 1), (0, 1)] = some zero ∧
    mod 5 ([(1, 1), (3, 1)] : Polynomial ℚ) [(-2, 1), (0, 1)] = some zero ∧
    ∃ g, comma 5 ([(-1, 1), (1, 1)] : Polynomial ℚ) [(1, 1), (3, 1)] = some g ∧
      mod 5 g [(-2, 1), (0, 1)] = some zero :=
  ⟨by decide, by decide, by decide, by decide, by decide, by decide, by decide,
    by decide, by decide!, by decide!,
    comma_greatest _ _ _ (by decide) (by decide) (by decide) (by decide) (by decide)
      (by decide) 5 (by decide) (by decide) 3 5 (by decide!) (by decide!)⟩

end GcdClaims

/-! ## The zero-free invariant (claim C6) -/

section InvariantClaims

/-- C6. Zero-free invariant: every polynomial that one of the three
constructors builds stores no coefficient equal to `T()`; the results of `+=`,
`-=`, `*=` (and of `+`, `-`, `*`, which run them on a copy) store none; and over
a coefficient field, for zero-free operands, whatever `/`, `%` and `operator,`
(with its division by the leading coefficient) return stores none.  The last two
parts add that these results are returned when the divisor is not identically
zero, respectively for all operands, with non-negative exponents. -/
theorem zeroFree_invariant [Field T] [DecidableEq T] :
    (∀ coefficients : List T, ZeroFree (ofCoeffs coefficients)) ∧
    (∀ (monom : T) (power : Int), ZeroFree (monomial monom power)) ∧
    (∀ range : List T, ZeroFree (ofRange range)) ∧
    (∀ left other : Polynomial T, ZeroFree (add left other)) ∧
    (∀ left other : Polynomial T, ZeroFree (sub left other)) ∧
    (∀ left other : Polynomial T, ZeroFree (mul left other)) ∧
    (∀ (fuel : Nat) (left right quot : Polynomial T), ZeroFree left → ZeroFree right →
      div fuel left right = some quot → ZeroFree quot) ∧
    (∀ (fuel : Nat) (left right rem : Polynomial T), ZeroFree left → ZeroFree right →
      mod fuel left right = some rem → ZeroFree rem) ∧
    (∀ (fuel : Nat) (left right g : Polynomial T), Sorted left → Sorted right →
      ZeroFree left → ZeroFree right → comma fuel left right = some g → ZeroFree g) ∧
    (∀ (fuel : Nat) (left right : Polynomial T), Sorted left → Sorted right →
      ZeroFree left → ZeroFree right → NonNeg right → right ≠ zero →
      (Degree left - Degree right + 1).toNat < fuel →
      ∃ quot rem, div fuel left right = some quot ∧ mod fuel left right = some rem ∧
        ZeroFree quot ∧ ZeroFree rem) ∧
    (∀ (fuel : Nat) (left right : Polynomial T), Sorted left → Sorted right →
      ZeroFree left → ZeroFree right → NonNeg left → NonNeg right →
      Degree left + 2 ≤ fuel → Degree right + 2 ≤ fuel →
      ∃ g, comma fuel left right = some g ∧ ZeroFree g) := by
  refine ⟨fun cs => zeroFree_ofCoeffsLoop cs 0 [] zeroFree_nil, zeroFree_monomial,
    fun cs => zeroFree_ofRangeLoop cs 0 [] zeroFree_nil, zeroFree_add, zeroFree_sub,
    zeroFree_mul, ?_, ?_, ?_, ?_, ?_⟩
  · intro fuel left right quot hl _ h
    unfold div at h
    cases hdiv : divide fuel left right with
    | none => rw [hdiv] at h; simp at h
    | some x =>
      obtain ⟨a, r⟩ := x
      rw [hdiv] at h
      simp only [Option.map_some', Option.some.injEq] at h
      subst h
      exact (divideLoop_zeroFree right fuel zero left a r zeroFree_nil hl hdiv).1
  · intro fuel left right rem hl _ h
    unfold mod at h
    cases hdiv : divide fuel left right with
    | none => rw [hdiv] at h; simp at h
    | some x =>
      obtain ⟨a, r⟩ := x
      rw [hdiv] at h
      simp only [Option.map_some', Option.some.injEq] at h
      subst h
      exact (divideLoop_zeroFree right fuel zero left a r zeroFree_nil hl hdiv).2
  · intro fuel left right g hl hr hlz hrz h
    exact commaLoop_zeroFree fuel fuel left right g hl hlz hr hrz h
  · intro fuel left right hl hr hlz hrz hrn hne hfuel
    obtain ⟨a, r, h, _, h2, _, _, h5, _, _⟩ :=
      divide_spec left right hl hlz hr hrz (Degree_nonneg_of_ne right hrn hne) fuel hfuel
    exact ⟨a, r, by simp [div, h], by simp [mod, h], h2, h5⟩
  · intro fuel left right hl hr hlz hrz hln hrn hfl hfr
    obtain ⟨g, hg, _, hg2, _⟩ :=
      comma_spec [(0, 1)] left right sorted_one zeroFree_one (le_of_eq Degree_one.symm)
        hl hlz hr hrz (divides_of_nonNeg left hl hlz hln) (divides_of_nonNeg right hr hrz hrn)
        fuel hfl hfr
    exact ⟨g, hg, hg2⟩

/-- The invariant on the polynomial built from the coefficients `0, 1, 0, 2`, on
the difference `x - x` and on the GCD of `x^2 - 1` and `2x + 2`, over the
rationals. -/
theorem zeroFree_invariant_witness :
    ZeroFree (ofCoeffs [0, 1, 0, (2 : ℚ)]) ∧
    ZeroFree (sub ([(1, 1)] : Polynomial ℚ) [(1, 1)]) ∧
    ∃ g, comma 4 ([(0, -1), (2, 1)] : Polynomial ℚ) [(0, 2), (1, 2)] = some g ∧
      ZeroFree g :=
  ⟨(zeroFree_invariant (T := ℚ)).1 _, (zeroFree_invariant (T := ℚ)).2.2.2.2.1 _ _,
    (zeroFree_invariant (T := ℚ)).2.2.2.2.2.2.2.2.2.2 4 _ _ (by decide) (by decide)
      (by decide) (by decide) (by decide) (by decide) (by decide) (by decide)⟩

end InvariantClaims

/-! ## Evaluation (claim C7) -/

section EvaluationClaims

/-- C7. Evaluation correctness: for every polynomial `p` with non-negative
exponents and every value `v` of the coefficient type, `operator()(v)` returns
the sum of `c * v^k` over the stored terms `(k, c)`; `Polynomial({0,0,0,1})`
evaluated at `2` yields `8`; a polynomial of degree `0` returns its constant
coefficient; the identically-zero polynomial evaluates to `T()` at every `v`. -/
theorem eval_correct [Semiring T] [DecidableEq T] (p : Polynomial T) (hs : Sorted p)
    (hn : NonNeg p) (v : T) :
    eval p v = (p.map (fun e => e.2 * v ^ e.1.toNat)).sum ∧
    eval (ofCoeffs [0, 0, 0, (1 : T)]) 2 = 8 ∧
    (Degree p = 0 → eval p v = get p 0) ∧
    eval (zero : Polynomial T) v = 0 := by
  refine ⟨eval_eq_sum p hs hn v, ?_, fun h => eval_of_Degree_zero p hs h v, ?_⟩
  · by_cases h1 : (1 : T) = 0
    · have hall : ∀ a b : T, a = b := fun a b => by
        rw [← mul_one a, ← mul_one b, h1, mul_zero, mul_zero]
      exact hall _ _
    · have hp : ofCoeffs [0, 0, 0, (1 : T)] = [(3, 1)] := by
        simp [ofCoeffs, ofCoeffsLoop, insert, h1]
      have hs3 : Sorted ([(3, 1)] : Polynomial T) := List.pairwise_singleton _ _
      have hn3 : NonNeg ([(3, 1)] : Polynomial T) := by
        intro e he
        rw [List.mem_singleton.1 he]
        show (0 : Int) ≤ 3
        omega
      rw [hp, eval_eq_sum _ hs3 hn3]
      simp
      norm_num
  · simp [eval, zero, Degree, evalLoop]

/-- The value of `3x^2 + 2x + 1` at `5` over the integers. -/
theorem eval_correct_witness :
    Sorted ([(0, 1), (1, 2), (2, 3)] : Polynomial ℤ) ∧
    NonNeg ([(0, 1), (1, 2), (2, 3)] : Polynomial ℤ) ∧
    (eval ([(0, 1), (1, 2), (2, 3)] : Polynomial ℤ) 5
        = (([(0, 1), (1, 2), (2, 3)] : Polynomial ℤ).map
            (fun e => e.2 * 5 ^ e.1.toNat)).sum ∧
      eval (ofCoeffs [0, 0, 0, (1 : ℤ)]) 2 = 8 ∧
      (Degree ([(0, 1), (1, 2), (2, 3)] : Polynomial ℤ) = 0 →
        eval ([(0, 1), (1, 2), (2, 3)] : Polynomial ℤ) 5
          = get ([(0, 1), (1, 2), (2, 3)] : Polynomial ℤ) 0) ∧
      eval (zero : Polynomial ℤ) 5 = 0) :=
  ⟨by decide, by decide, eval_correct _ (by decide) (by decide) 5⟩

end EvaluationClaims

/-! ## Additive inverse, equality and degree (claims C11, C12, C13) -/

section BasicClaims

/-- C11. Additive inverse: over a coefficient ring, for every polynomial `p`,
`p + (-1) * p == 0`, where `(-1)` is the constant polynomial `Polynomial(-1, 0)`
and `0` the default-constructed polynomial; and `p - p` has an empty mapping and
`Degree()` equal to `-1`.  Only the key order of `p` is used, so the statement
covers all zero-free operands. -/
theorem add_neg_self [Ring T] [DecidableEq T] (p : Polynomial T) (hp : Sorted p) :
    eq (add p (mul (monomial (-1) 0) p)) zero = true ∧
    sub p p = [] ∧ Degree (sub p p) = -1 := by
  have h1 : add p (mul (monomial (-1) 0) p) = zero := by
    apply eq_of_sem_eq _ _ (sorted_add _ _ hp) (zeroFree_add _ _) sorted_nil zeroFree_nil
    have hone : (AddMonoidAlgebra.single (0 : Int) (-1 : T) : AddMonoidAlgebra T ℤ) = -1 :=
      Finsupp.single_neg (0 : Int) (1 : T)
    rw [sem_add, sem_mul, sem_monomial, hone]
    simp [zero, sem_nil]
  have h2 : sub p p = [] := by
    apply eq_of_sem_eq _ _ (sorted_sub _ _ hp) (zeroFree_sub _ _) sorted_nil zeroFree_nil
    rw [sem_sub, sub_self, sem_nil]
  refine ⟨by simp [eq, h1], h2, ?_⟩
  rw [h2]; rfl

/-- The polynomial `x^2 - 3x + 1/2` over the rationals. -/
theorem add_neg_self_witness :
    Sorted ([(0, 1 / 2), (1, -3), (2, 1)] : Polynomial ℚ) ∧
    (eq (add ([(0, 1 / 2), (1, -3), (2, 1)] : Polynomial ℚ)
        (mul (monomial (-1) 0) [(0, 1 / 2), (1, -3), (2, 1)])) zero = true ∧
      sub ([(0, 1 / 2), (1, -3), (2, 1)] : Polynomial ℚ) [(0, 1 / 2), (1, -3), (2, 1)] = [] ∧
      Degree (sub ([(0, 1 / 2), (1, -3), (2, 1)] : Polynomial ℚ)
        [(0, 1 / 2), (1, -3), (2, 1)]) = -1) :=
  ⟨by decide, add_neg_self _ (by decide)⟩

/-- C12. Equality is semantic equality: for all polynomials `p` and `q` that
satisfy the zero-free invariant, `p == q` holds if and only if `p[k] == q[k]`
for every exponent `k`; and `operator!=` is its negation. -/
theorem eq_iff_get [Zero T] [DecidableEq T] (p q : Polynomial T)
    (hp : Sorted p) (hpz : ZeroFree p) (hq : Sorted q) (hqz : ZeroFree q) :
    (eq p q = true ↔ ∀ k : Int, get p k = get q k) ∧ ne p q = !(eq p q) := by
  refine ⟨⟨?_, ?_⟩, rfl⟩
  · intro h k
    have : p = q := by simpa [eq] using h
    rw [this]
  · intro h
    have : p = q := eq_of_get_eq p q hp hpz hq hqz h
    simp [eq, this]

/-- The polynomials `x^2 + 1` and `x^2 + 2` over the integers. -/
theorem eq_iff_get_witness :
    Sorted ([(0, 1), (2, 1)] : Polynomial ℤ) ∧ ZeroFree ([(0, 1), (2, 1)] : Polynomial ℤ) ∧
    Sorted ([(0, 2), (2, 1)] : Polynomial ℤ) ∧ ZeroFree ([(0, 2), (2, 1)] : Polynomial ℤ) ∧
    ((eq ([(0, 1), (2, 1)] : Polynomial ℤ) [(0, 2), (2, 1)] = true ↔
        ∀ k : Int, get ([(0, 1), (2, 1)] : Polynomial ℤ) k
          = get ([(0, 2), (2, 1)] : Polynomial ℤ) k) ∧
      ne ([(0, 1), (2, 1)] : Polynomial ℤ) [(0, 2), (2, 1)]
        = !(eq ([(0, 1), (2, 1)] : Polynomial ℤ) [(0, 2), (2, 1)])) :=
  ⟨by decide, by decide, by decide, by decide,
    eq_iff_get _ _ (by decide) (by decide) (by decide) (by decide)⟩

/-- C13. Degree: for every zero-free polynomial `p` with non-negative
exponents, `Degree()` returns `-1` if and only if `p` is identically zero (its
mapping is empty); otherwise it returns an exponent `d` with `p[d]` non-zero and
`p[k]` equal to `T()` for every `k > d`. -/
theorem Degree_correct [Zero T] (p : Polynomial T) (hp : Sorted p) (hpz : ZeroFree p)
    (hpn : NonNeg p) :
    (Degree p = -1 ↔ p = zero) ∧
    (p ≠ zero → get p (Degree p) ≠ 0 ∧ ∀ k : Int, Degree p < k → get p k = 0) := by
  refine ⟨⟨fun h => eq_nil_of_Degree p hpn h, fun h => by rw [h]; rfl⟩, ?_⟩
  intro hne
  exact ⟨get_Degree_ne_zero p hp hpz hne, fun k hk => get_of_Degree_lt p hp k hk⟩

/-- The polynomial `4x^3 + x` over the integers. -/
theorem Degree_correct_witness :
    Sorted ([(1, 1), (3, 4)] : Polynomial ℤ) ∧ ZeroFree ([(1, 1), (3, 4)] : Polynomial ℤ) ∧
    NonNeg ([(1, 1), (3, 4)] : Polynomial ℤ) ∧
    ((Degree ([(1, 1), (3, 4)] : Polynomial ℤ) = -1 ↔
        ([(1, 1), (3, 4)] : Polynomial ℤ) = zero) ∧
      (([(1, 1), (3, 4)] : Polynomial ℤ) ≠ zero →
        get ([(1, 1), (3, 4)] : Polynomial ℤ) (Degree ([(1, 1), (3, 4)] : Polynomial ℤ)) ≠ 0 ∧
        ∀ k : Int, Degree ([(1, 1), (3, 4)] : Polynomial ℤ) < k →
          get ([(1, 1), (3, 4)] : Polynomial ℤ) k = 0)) :=
  ⟨by decide, by decide, by decide, Degree_correct _ (by decide) (by decide) (by decide)⟩

end BasicClaims

/-! ## Construction and indexing (claim C14) -/

section ConstructionClaims

/-- C14. Construction/indexing round trip: for every coefficient sequence
`c0..cn`, the polynomial `P` that the sequence constructor builds has
`P[i] == ci` for `0 <= i <= n` and `P[k] == T()` at every other exponent `k`; it
stores an entry at `i` exactly when `ci != 0`; the iterator-range constructor
builds an equal polynomial from the same sequence; and `operator[]` leaves
`Data` as it was. -/
theorem ofCoeffs_roundtrip [Zero T] [DecidableEq T] (cs : List T) :
    (∀ (i : Nat) (h : i < cs.length), get (ofCoeffs cs) (i : Int) = cs[i]) ∧
    (∀ k : Int, (k < 0 ∨ (cs.length : Int) ≤ k) → get (ofCoeffs cs) k = 0) ∧
    (∀ (i : Nat) (h : i < cs.length), (∃ c, ((i : Int), c) ∈ ofCoeffs cs) ↔ cs[i] ≠ 0) ∧
    eq (ofRange cs) (ofCoeffs cs) = true ∧
    (∀ (p : Polynomial T) (k : Int), (index p k).1 = get p k ∧ (index p k).2 = p) := by
  have hs : Sorted (ofCoeffs cs) := sorted_ofCoeffsLoop cs 0 [] sorted_nil
  refine ⟨?_, ?_, ?_, ?_, fun p k => ⟨rfl, rfl⟩⟩
  · intro i h
    unfold get
    rw [find_ofCoeffs cs i h]
    split_ifs with hc
    · rfl
    · exact (not_not.1 hc).symm
  · intro k hk
    unfold get ofCoeffs
    rw [find_ofCoeffsLoop cs 0 [] (fun e he => by cases he)]
    rcases hk with hk | hk
    · rw [if_pos hk]; rfl
    · rw [if_neg (by omega), List.getElem?_eq_none (by omega)]
      rfl
  · intro i h
    constructor
    · rintro ⟨c, hc⟩
      have hf := find_of_mem (ofCoeffs cs) hs (i : Int) c hc
      rw [find_ofCoeffs cs i h] at hf
      split_ifs at hf with h0
      exact h0
    · intro h0
      refine ⟨cs[i], mem_of_find _ _ _ ?_⟩
      rw [find_ofCoeffs cs i h, if_pos h0]
  · have : ofRange cs = ofCoeffs cs := ofRangeLoop_eq cs 0 []
    simp [eq, this]

/-- The coefficient sequence `1, 0, 3` over the integers, at index `1`. -/
theorem ofCoeffs_roundtrip_witness :
    get (ofCoeffs ([1, 0, 3] : List ℤ)) ((1 : Nat) : Int) = ([1, 0, 3] : List ℤ)[1] ∧
    get (ofCoeffs ([1, 0, 3] : List ℤ)) 7 = 0 ∧
    ((∃ c, (((2 : Nat) : Int), c) ∈ ofCoeffs ([1, 0, 3] : List ℤ)) ↔
      ([1, 0, 3] : List ℤ)[2] ≠ 0) ∧
    eq (ofRange ([1, 0, 3] : List ℤ)) (ofCoeffs [1, 0, 3]) = true :=
  ⟨(ofCoeffs_roundtrip ([1, 0, 3] : List ℤ)).1 1 (by decide),
    (ofCoeffs_roundtrip ([1, 0, 3] : List ℤ)).2.1 7 (Or.inr (by decide)),
    (ofCoeffs_roundtrip ([1, 0, 3] : List ℤ)).2.2.1 2 (by decide),
    (ofCoeffs_roundtrip ([1, 0, 3] : List ℤ)).2.2.2.1⟩

end ConstructionClaims

/-! ## Formatting (claim C15) -/

section FormattingClaims

/-- C15. Formatting golden cases over integer coefficients: stream insertion
renders `Polynomial({0})` as `0`, `Polynomial({1,2,3})` as `3*x^2+2*x+1`,
`Polynomial(5, 0)` as `5` and `Polynomial(-1, 1)` as `-x`.  In general it
appends the text of §4.8: the terms from the highest exponent to the lowest
(`formatText` walks the reversed map), a coefficient of absolute value `1`
omitted together with `*` at an exponent of at least `1` and shown at
exponent `0`, and `+` only before a positive coefficient that is not leading. -/
theorem print_golden :
    print "" (ofCoeffs [0]) = "0" ∧
    print "" (ofCoeffs [1, 2, 3]) = "3*x^2+2*x+1" ∧
    print "" (monomial 5 0) = "5" ∧
    print "" (monomial (-1) 1) = "-x" ∧
    (∀ (out : String) (p : Polynomial Int), print out p = out ++ formatText p) ∧
    (∀ (out : String) (monom : Int × Int) (first_monom : Bool),
      print_monom out monom first_monom = out ++ termText monom first_monom) ∧
    (∀ (k c : Int) (leading : Bool), c.natAbs = 1 → k ≥ 1 →
      termText (k, c) leading
        = (if c < 0 then "-" else if leading = false then "+" else "")
          ++ ("x" ++ (if k > 1 then "^" ++ toString k else ""))) ∧
    (∀ (c : Int) (leading : Bool),
      termText (0, c) leading
        = (if c < 0 then "-" else if c > 0 ∧ leading = false then "+" else "")
          ++ toString c.natAbs) := by
  refine ⟨by decide, by decide, by decide, by decide, print_eq, print_monom_eq, ?_, ?_⟩
  · intro k c leading h1 hk
    have hc : c < 0 ∨ c > 0 := by omega
    unfold termText
    rcases hc with hc | hc
    · simp only [hc, h1, hk, if_true, ne_eq, not_true_eq_false, or_false, if_false,
        String.empty_append, String.append_assoc, ge_iff_le]
      have h0 : ¬ k = 0 := by omega
      simp only [h0, if_false, String.empty_append]
    · have hn : ¬ c < 0 := by omega
      have h0 : ¬ k = 0 := by omega
      simp only [hn, hc, h1, hk, h0, if_true, ne_eq, not_true_eq_false, or_false, if_false,
        String.empty_append, String.append_assoc, ge_iff_le, true_and]
  · intro c leading
    unfold termText
    have h0 : ¬ ((0 : Int) ≥ 1) := by omega
    simp only [h0, if_false, true_or, if_true, String.append_empty]

end FormattingClaims

/-! ## Multiplication (claim C16) -/

section MultiplicationClaims

/-- C16. Multiplication is convolution: for all polynomials `p`, `q` and every
exponent `k`, `(p * q)[k]` is the sum of `p[i] * q[j]` over all pairs of stored
terms with `i + j == k`, and the product stores an entry for `k` exactly when
that sum is not `T()`; the same holds for `p * p`.  No hypothesis on the
operands is used, so the statement covers all zero-free operands with
non-negative exponents. -/
theorem mul_convolution [Semiring T] [DecidableEq T] (p q : Polynomial T) (k : Int) :
    get (mul p q) k
      = (p.map (fun e =>
          (q.map (fun f => if e.1 + f.1 = k then e.2 * f.2 else 0)).sum)).sum ∧
    ((∃ c, (k, c) ∈ mul p q) ↔
      (p.map (fun e =>
          (q.map (fun f => if e.1 + f.1 = k then e.2 * f.2 else 0)).sum)).sum ≠ 0) ∧
    get (mul p p) k
      = (p.map (fun e =>
          (p.map (fun f => if e.1 + f.1 = k then e.2 * f.2 else 0)).sum)).sum := by
  have h : ∀ a b : Polynomial T, get (mul a b) k
      = (a.map (fun e =>
          (b.map (fun f => if e.1 + f.1 = k then e.2 * f.2 else 0)).sum)).sum := by
    intro a b
    rw [← sem_apply _ (sorted_mul a b), sem_mul, sem_mul_apply_pairs]
  refine ⟨h p q, ?_, h p p⟩
  rw [mem_iff_get_ne_zero _ (sorted_mul p q) (zeroFree_mul p q), h p q]

end MultiplicationClaims

/-! ## Termination of the division and the zero divisor (claims C17, C18) -/

section TerminationClaims

/-- C17. Division terminates by degree descent: over a coefficient field, for
every dividend `p` and every divisor `q` (exponents non-negative, the data model
of §3) that is not identically zero, each iteration of the loop of `divide`
replaces the running remainder `left` by `left - q * quot` of strictly smaller
`Degree()`, the exponent `left.Degree() - q.Degree()` of the monomial it builds
is non-negative, and the loop runs at most `Degree(p) - Degree(q) + 1` times:
with one more evaluation of the guard allowed, the one that ends the loop,
`divide` returns a pair. -/
theorem divide_terminates [Field T] [DecidableEq T] (p q : Polynomial T)
    (hp : Sorted p) (hq : Sorted q) (hqz : ZeroFree q) (hqn : NonNeg q) (hne : q ≠ zero) :
    (∀ left : Polynomial T, Sorted left → Degree left ≥ Degree q →
      Degree (sub left (mul q (monomial (get left (Degree left) / get q (Degree q))
        (Degree left - Degree q)))) < Degree left ∧
      0 ≤ Degree left - Degree q) ∧
    ∃ x, divide ((Degree p - Degree q + 1).toNat + 1) p q = some x := by
  have hdq := Degree_nonneg_of_ne q hqn hne
  refine ⟨fun left hl hge => ⟨Degree_divide_step left q hl hq hqz hdq hge, by omega⟩, ?_⟩
  exact divideLoop_isSome q hq hqz hdq _ zero p hp (le_refl _)

/-- The division of `x^3 + 3x^2 + 2x + 1` by `2x + 1` over the rationals: three
iterations and four evaluations of the guard. -/
theorem divide_terminates_witness :
    Sorted ([(0, 1), (1, 2), (2, 3), (3, 1)] : Polynomial ℚ) ∧
    Sorted ([(0, 1), (1, 2)] : Polynomial ℚ) ∧
    ZeroFree ([(0, 1), (1, 2)] : Polynomial ℚ) ∧
    NonNeg ([(0, 1), (1, 2)] : Polynomial ℚ) ∧
    ([(0, 1), (1, 2)] : Polynomial ℚ) ≠ zero ∧
    ((∀ left : Polynomial ℚ, Sorted left →
        Degree left ≥ Degree ([(0, 1), (1, 2)] : Polynomial ℚ) →
        Degree (sub left (mul [(0, 1), (1, 2)]
          (monomial (get left (Degree left)
              / get ([(0, 1), (1, 2)] : Polynomial ℚ)
                  (Degree ([(0, 1), (1, 2)] : Polynomial ℚ)))
            (Degree left - Degree ([(0, 1), (1, 2)] : Polynomial ℚ))))) < Degree left ∧
        0 ≤ Degree left - Degree ([(0, 1), (1, 2)] : Polynomial ℚ)) ∧
      ∃ x, divide ((Degree ([(0, 1), (1, 2), (2, 3), (3, 1)] : Polynomial ℚ)
          - Degree ([(0, 1), (1, 2)] : Polynomial ℚ) + 1).toNat + 1)
          ([(0, 1), (1, 2), (2, 3), (3, 1)] : Polynomial ℚ) [(0, 1), (1, 2)] = some x) :=
  ⟨by decide, by decide, by decide, by decide, by decide,
    divide_terminates _ _ (by decide) (by decide) (by decide) (by decide) (by decide)⟩

/-- C18. The zero divisor is unguarded in `divide` but never reached from the
GCD: when the divisor is identically zero, for every dividend `p` (exponents
non-negative, the data model of §3; the zero polynomial included) the guard
`left.Degree() >= right.Degree()` holds on entry, the divisor `right[-1]` of the
first coefficient division is `T()`, and `divide` returns no pair; whereas
`operator,` evaluates `left % right` only when `right.Degree() != -1`, which
makes `right` not identically zero, so `(p, 0)` returns `p` made monic and
`(0, 0)` the zero polynomial, also when no iteration of `divide` is allowed. -/
theorem zero_divisor [Field T] [DecidableEq T] (p : Polynomial T)
    (hp : Sorted p) (hpz : ZeroFree p) (hpn : NonNeg p) :
    Degree p ≥ Degree (zero : Polynomial T) ∧
    get (zero : Polynomial T) (Degree (zero : Polynomial T)) = 0 ∧
    (∀ fuel : Nat, divide fuel p zero = none) ∧
    (∀ fuel loopFuel : Nat, commaLoop fuel (loopFuel + 1) p zero = some (makeMonic p)) ∧
    (∀ fuel : Nat, comma (fuel + 1) p zero = some (makeMonic p)) ∧
    (p ≠ zero → get (makeMonic p) (Degree (makeMonic p)) = 1) ∧
    (∀ fuel : Nat, comma (fuel + 1) (zero : Polynomial T) zero = some zero) ∧
    (∀ (fuel loopFuel : Nat) (left right : Polynomial T),
      (Degree right ≠ -1 → right ≠ zero) ∧
      (Degree right = -1 →
        commaLoop fuel (loopFuel + 1) left right = some (makeMonic left))) := by
  have h1 : -1 ≤ Degree p := neg_one_le_Degree p hpn
  refine ⟨h1, rfl, fun fuel => divideLoop_zero_divisor fuel zero p zeroFree_nil hpz h1,
    fun fuel loopFuel => commaLoop_zero_right fuel loopFuel p zero rfl,
    fun fuel => commaLoop_zero_right (fuel + 1) fuel p zero rfl, ?_,
    fun fuel => ?_, ?_⟩
  · intro hne
    have hD : Degree p ≠ -1 := by
      have := Degree_nonneg p hpn hne
      omega
    exact get_makeMonic_Degree p hp hpz hne hD
  · have := commaLoop_zero_right (fuel + 1) fuel (zero : Polynomial T) zero rfl
    rw [comma, this]
    rfl
  · intro fuel loopFuel left right
    refine ⟨?_, fun h => commaLoop_zero_right fuel loopFuel left right h⟩
    intro h h0
    rw [h0] at h
    exact h rfl

/-- The dividend `2x^2 + 4` over the rationals. -/
theorem zero_divisor_witness :
    Sorted ([(0, 4), (2, 2)] : Polynomial ℚ) ∧ ZeroFree ([(0, 4), (2, 2)] : Polynomial ℚ) ∧
    NonNeg ([(0, 4), (2, 2)] : Polynomial ℚ) ∧
    (∀ fuel : Nat, divide fuel ([(0, 4), (2, 2)] : Polynomial ℚ) zero = none) ∧
    (∀ fuel : Nat, comma (fuel + 1) ([(0, 4), (2, 2)] : Polynomial ℚ) zero
      = some (makeMonic [(0, 4), (2, 2)])) :=
  ⟨by decide, by decide, by decide,
    (zero_divisor ([(0, 4), (2, 2)] : Polynomial ℚ) (by decide) (by decide) (by decide)).2.2.1,
    (zero_divisor ([(0, 4), (2, 2)] : Polynomial ℚ) (by decide) (by decide)
      (by decide)).2.2.2.2.1⟩

end TerminationClaims

/-! ## Uniqueness of the division and evaluation of sums and products
(claims C19, C20) -/

section UniquenessClaims

/-- C19. Uniqueness of quotient and remainder: over a coefficient field, for
all polynomials `p`, `a`, `r` and every `q` that is not identically zero (the
exponents of `a` and `q` non-negative, the data model of §3), if
`p == a * q + r` and `Degree(r) < Degree(q)` then `p / q` returns `a` and
`p % q` returns `r`; and for all `p`, `q` with `Degree(p) < Degree(q)` the quotient is the zero
polynomial and the remainder is `p` itself. -/
theorem divide_unique [Field T] [DecidableEq T] (p a r q : Polynomial T)
    (hp : Sorted p) (hpz : ZeroFree p) (ha : Sorted a) (haz : ZeroFree a) (han : NonNeg a)
    (hr : Sorted r) (hrz : ZeroFree r) (hq : Sorted q) (hqz : ZeroFree q) (hqn : NonNeg q)
    (hne : q ≠ zero) (heq : eq p (add (mul a q) r) = true) (hdeg : Degree r < Degree q)
    (fuel : Nat) (hfuel : (Degree p - Degree q + 1).toNat < fuel) :
    div fuel p q = some a ∧ mod fuel p q = some r ∧
    ∀ (p1 q1 : Polynomial T) (fuel1 : Nat), Degree p1 < Degree q1 →
      div (fuel1 + 1) p1 q1 = some zero ∧ mod (fuel1 + 1) p1 q1 = some p1 := by
  have hpe : p = add (mul a q) r := by simpa [eq] using heq
  have hsem : sem p = sem a * sem q + sem r := by
    conv_lhs => rw [hpe]
    rw [sem_add, sem_mul]
  have hdiv := divide_unique_aux p a r q hp hpz ha haz han hr hrz hq hqz
    (Degree_nonneg_of_ne q hqn hne) hsem hdeg fuel hfuel
  refine ⟨by simp [div, hdiv], by simp [mod, hdiv], ?_⟩
  intro p1 q1 fuel1 h
  have := divide_of_Degree_lt p1 q1 fuel1 h
  exact ⟨by simp [div, this], by simp [mod, this]⟩

/-- The polynomial `(x + 2) * (2x + 1) + 5` over the rationals. -/
theorem divide_unique_witness :
    Sorted ([(0, 7), (1, 5), (2, 2)] : Polynomial ℚ) ∧
    ZeroFree ([(0, 7), (1, 5), (2, 2)] : Polynomial ℚ) ∧
    Sorted ([(0, 2), (1, 1)] : Polynomial ℚ) ∧ ZeroFree ([(0, 2), (1, 1)] : Polynomial ℚ) ∧
    NonNeg ([(0, 2), (1, 1)] : Polynomial ℚ) ∧
    Sorted ([(0, 5)] : Polynomial ℚ) ∧ ZeroFree ([(0, 5)] : Polynomial ℚ) ∧
    Sorted ([(0, 1), (1, 2)] : Polynomial ℚ) ∧ ZeroFree ([(0, 1), (1, 2)] : Polynomial ℚ) ∧
    NonNeg ([(0, 1), (1, 2)] : Polynomial ℚ) ∧
    ([(0, 1), (1, 2)] : Polynomial ℚ) ≠ zero ∧
    eq ([(0, 7), (1, 5), (2, 2)] : Polynomial ℚ)
      (add (mul [(0, 2), (1, 1)] [(0, 1), (1, 2)]) [(0, 5)]) = true ∧
    Degree ([(0, 5)] : Polynomial ℚ) < Degree ([(0, 1), (1, 2)] : Polynomial ℚ) ∧
    (Degree ([(0, 7), (1, 5), (2, 2)] : Polynomial ℚ)
      - Degree ([(0, 1), (1, 2)] : Polynomial ℚ) + 1).toNat < 3 ∧
    (div 3 ([(0, 7), (1, 5), (2, 2)] : Polynomial ℚ) [(0, 1), (1, 2)]
        = some [(0, 2), (1, 1)] ∧
      mod 3 ([(0, 7), (1, 5), (2, 2)] : Polynomial ℚ) [(0, 1), (1, 2)] = some [(0, 5)] ∧
      ∀ (p1 q1 : Polynomial ℚ) (fuel1 : Nat), Degree p1 < Degree q1 →
        div (fuel1 + 1) p1 q1 = some zero ∧ mod (fuel1 + 1) p1 q1 = some p1) :=
  ⟨by decide, by decide, by decide, by decide, by decide, by decide, by decide, by decide,
    by decide, by decide, by decide, by decide!, by decide, by decide,
    divide_unique _ _ _ _ (by decide) (by decide) (by decide) (by decide) (by decide)
      (by decide) (by decide) (by decide) (by decide) (by decide) (by decide) (by decide!)
      (by decide) 3 (by decide)⟩

/-- C20. Evaluation is a ring homomorphism: over a commutative coefficient ring,
for all polynomials `p`, `q` with non-negative exponents and every value `v`,
`(p + q)(v) == p(v) + q(v)` and `(p * q)(v) == p(v) * q(v)`, where `(v)` is
`operator()`.  The zero-free invariant is not used. -/
theorem eval_hom [CommSemiring T] [DecidableEq T] (p q : Polynomial T)
    (hp : Sorted p) (hpn : NonNeg p) (hq : Sorted q) (hqn : NonNeg q) (v : T) :
    eval (add p q) v = eval p v + eval q v ∧
    eval (mul p q) v = eval p v * eval q v := by
  rw [eval_eq_sumTerms _ (sorted_add p q hp) (nonNeg_add p q hpn hqn),
    eval_eq_sumTerms _ (sorted_mul p q) (nonNeg_mul p q hpn hqn),
    eval_eq_sumTerms p hp hpn, eval_eq_sumTerms q hq hqn]
  exact ⟨sumTerms_add p q v, sumTerms_mul p q v hpn hqn⟩

/-- The polynomials `x^2 - 1` and `x + 1` at `3` over the integers. -/
theorem eval_hom_witness :
    Sorted ([(0, -1), (2, 1)] : Polynomial ℤ) ∧ NonNeg ([(0, -1), (2, 1)] : Polynomial ℤ) ∧
    Sorted ([(0, 1), (1, 1)] : Polynomial ℤ) ∧ NonNeg ([(0, 1), (1, 1)] : Polynomial ℤ) ∧
    (eval (add ([(0, -1), (2, 1)] : Polynomial ℤ) [(0, 1), (1, 1)]) 3
        = eval ([(0, -1), (2, 1)] : Polynomial ℤ) 3 + eval ([(0, 1), (1, 1)] : Polynomial ℤ) 3 ∧
      eval (mul ([(0, -1), (2, 1)] : Polynomial ℤ) [(0, 1), (1, 1)]) 3
        = eval ([(0, -1), (2, 1)] : Polynomial ℤ) 3
          * eval ([(0, 1), (1, 1)] : Polynomial ℤ) 3) :=
  ⟨by decide, by decide, by decide, by decide,
    eval_hom _ _ (by decide) (by decide) (by decide) (by decide) 3⟩

end UniquenessClaims

end Polynomial

end Comunodi
